import Mathlib

/-!
Verification of the xmap core collection library (src/lib/xm_tables.c,
src/lib/xm_mpool_agent.h) against its natural-language specification.

Shallow embedding conventions:
* A C string (`const char *`, NUL-terminated, non-null) is a `List Nat` of its
  bytes before the terminating NUL; each byte of a well-formed key is in
  1..255 (`KeyValid`).  Reading the byte at index `i` through `byteAt` yields 0
  past the end, which models reading the NUL terminator (the C code never
  reads further than one byte past the last non-NUL byte).
* `char` is signed (the usual x86 ABI): converting a byte `b ≥ 128` to
  `uint32_t` sign-extends, modelled by `cToU32`.
* Machine arithmetic on `uint32_t` is `Nat` arithmetic with explicit
  `% 2 ^ 32`; bitwise ops are `Nat.land` / `Nat.lor` / `Nat.shiftLeft`.
* The table's entry array is modelled as a `List xm_table_entry_t`; the two
  `int index_first[32]` / `int index_last[32]` arrays are modelled as
  functions `Nat → Nat` (their values in reachable states are non-negative
  array positions), and the `uint32_t index_initialized` bitmask as a `Nat`
  read through `Nat.testBit`.  The model field is named `index_init`.
* Loops over a position range `[first, last]` are modelled by structural
  recursion on the trip count `last + 1 - first`.
-/

/-! ## Byte strings, case folding, `strcasecmp` -/

/-- `tolower` on an unsigned byte in the C locale. -/
def lcase (b : Nat) : Nat := if 65 ≤ b ∧ b ≤ 90 then b + 32 else b

/-- libc `strcasecmp` on NUL-terminated strings: compare case-folded bytes
until a difference or the terminator; the result is the signed difference of
the first differing folded bytes (0 standing in for the NUL terminator). -/
def strcasecmpM : List Nat → List Nat → Int
  | [], [] => 0
  | [], b :: _ => 0 - (lcase b : Int)
  | a :: _, [] => (lcase a : Int)
  | a :: as, b :: bs => if lcase a = lcase b then strcasecmpM as bs else (lcase a : Int) - (lcase b : Int)

/-- `!strcasecmp(a, b)` — case-insensitive equality. -/
def strcaseEq (a b : List Nat) : Bool := strcasecmpM a b == 0

/-- `strcasecmp(a, b) > 0` — used by the mergesort comparator. -/
def strcaseGT (a b : List Nat) : Bool := 0 < strcasecmpM a b

/-- A list of bytes is the content of a well-formed C string: no interior NUL
and every byte fits in 8 bits. -/
def KeyValid (k : List Nat) : Prop := ∀ b ∈ k, 0 < b ∧ b < 256

instance (k : List Nat) : Decidable (KeyValid k) :=
  inferInstanceAs (Decidable (∀ b ∈ k, 0 < b ∧ b < 256))

/-- Byte of the string at offset `i`; reading at or past the end yields the
NUL terminator 0. -/
def byteAt (k : List Nat) (i : Nat) : Nat := k.getD i 0

/-- `TABLE_HASH(key)`: `TABLE_INDEX_MASK (0x1f) & *(unsigned char *)key`. -/
def TABLE_HASH (key : List Nat) : Nat := (byteAt key 0) &&& 31

/-- `CASE_MASK` for the ASCII charset. -/
def CASE_MASK : Nat := 0xdfdfdfdf

/-- Conversion of a (signed) `char` with unsigned byte value `b` to
`uint32_t`: values ≥ 128 are negative as `char` and sign-extend. -/
def cToU32 (b : Nat) : Nat := if b < 128 then b else 4294967040 + b

/-- The body of the `COMPUTE_KEY_CHECKSUM` macro, as a function of the first
four byte reads `b0 b1 b2 b3` (a byte past the first NUL is the NUL itself and
is never read, mirrored by the nested conditionals: after reading a NUL the
remaining reads are skipped while the shifts still happen). -/
def checksumBytes (b0 b1 b2 b3 : Nat) : Nat :=
  if cToU32 b0 = 0 then
    (((((cToU32 b0 <<< 8) % 2 ^ 32) <<< 8) % 2 ^ 32) <<< 8) % 2 ^ 32 &&& CASE_MASK
  else if cToU32 b1 = 0 then
    (((((cToU32 b0 <<< 8) % 2 ^ 32 ||| cToU32 b1) <<< 8) % 2 ^ 32) <<< 8) % 2 ^ 32 &&& CASE_MASK
  else if cToU32 b2 = 0 then
    ((((cToU32 b0 <<< 8) % 2 ^ 32 ||| cToU32 b1) <<< 8) % 2 ^ 32 ||| cToU32 b2) <<< 8 % 2 ^ 32 &&& CASE_MASK
  else
    (((((cToU32 b0 <<< 8) % 2 ^ 32 ||| cToU32 b1) <<< 8) % 2 ^ 32 ||| cToU32 b2) <<< 8 % 2 ^ 32
      ||| cToU32 b3) &&& CASE_MASK

/-- `COMPUTE_KEY_CHECKSUM(key)` on a NUL-terminated string. -/
def computeChecksum (k : List Nat) : Nat :=
  checksumBytes (byteAt k 0) (byteAt k 1) (byteAt k 2) (byteAt k 3)

/-- Two byte reads are related when they are either identical or an
upper/lower-case pair; consequences packaged for the checksum proof. -/
def byteRel (b b' : Nat) : Prop :=
  (cToU32 b = 0 ↔ cToU32 b' = 0) ∧
  ∀ i, i ≠ 5 → Nat.testBit (cToU32 b) i = Nat.testBit (cToU32 b') i

/-! ## The growable array over an arena heap (xm_tables.c, array layer)

The arena is modelled as an append-only heap of byte buffers: `xm_palloc`
returns a fresh buffer id, buffers are never freed (arena semantics), and a
byte is `Option Nat` so that uninitialized (`xm_palloc`) storage reads as
`none` while zeroed (`xm_pcalloc` / `memset`) storage reads as `some 0`.
The `pool` field of the C array header is implicit (all allocations go to the
single heap being threaded); `elts` is the buffer id the `char *elts` pointer
points at. -/

structure ArenaHeap where
  bufs : List (List (Option Nat))
deriving Repr, DecidableEq

structure xm_array_header_t where
  elt_size : Nat
  nelts : Nat
  nalloc : Nat
  elts : Nat
deriving Repr, DecidableEq

/-- Allocate a fresh buffer; returns the updated heap and the buffer id. -/
def heapAlloc (h : ArenaHeap) (bytes : List (Option Nat)) : ArenaHeap × Nat :=
  ({ bufs := h.bufs ++ [bytes] }, h.bufs.length)

/-- `xm_array_make` via `make_array_core` with `clear = 1`: capacity is
clamped to at least 1 and the storage is zero-filled (`xm_pcalloc`). -/
def xm_array_make (h : ArenaHeap) (nelts elt_size : Nat) : ArenaHeap × xm_array_header_t :=
  let n := max nelts 1
  let r := heapAlloc h (List.replicate (n * elt_size) (some 0))
  (r.1, { elt_size := elt_size, nelts := 0, nalloc := n, elts := r.2 })

/-- `xm_array_push`: when full, double the capacity (1 if it was 0), copy the
old storage into a fresh buffer and zero-fill the newly exposed region; then
expose one more element slot. -/
def xm_array_push (h : ArenaHeap) (arr : xm_array_header_t) :
    ArenaHeap × xm_array_header_t :=
  if arr.nelts = arr.nalloc then
    let new_size := if arr.nalloc = 0 then 1 else arr.nalloc * 2
    let old := h.bufs.getD arr.elts []
    let new_data := old.take (arr.nalloc * arr.elt_size)
      ++ List.replicate ((new_size - arr.nalloc) * arr.elt_size) (some 0)
    let r := heapAlloc h new_data
    (r.1, { arr with elts := r.2, nalloc := new_size, nelts := arr.nelts + 1 })
  else
    (h, { arr with nelts := arr.nelts + 1 })

/-- `xm_array_push_noclear`: same, but the newly exposed growth region is left
uninitialized (no `memset`). -/
def xm_array_push_noclear (h : ArenaHeap) (arr : xm_array_header_t) :
    ArenaHeap × xm_array_header_t :=
  if arr.nelts = arr.nalloc then
    let new_size := if arr.nalloc = 0 then 1 else arr.nalloc * 2
    let old := h.bufs.getD arr.elts []
    let new_data := old.take (arr.nalloc * arr.elt_size)
      ++ List.replicate ((new_size - arr.nalloc) * arr.elt_size) none
    let r := heapAlloc h new_data
    (r.1, { arr with elts := r.2, nalloc := new_size, nelts := arr.nelts + 1 })
  else
    (h, { arr with nelts := arr.nelts + 1 })

/-- Overwrite `bytes.length` bytes of a buffer at byte offset `off`. -/
def writeBytes (buf : List (Option Nat)) (off : Nat) (bytes : List Nat) :
    List (Option Nat) :=
  buf.take off ++ bytes.map some ++ buf.drop (off + bytes.length)

def heapWrite (h : ArenaHeap) (id off : Nat) (bytes : List Nat) : ArenaHeap :=
  { bufs := h.bufs.set id (writeBytes (h.bufs.getD id []) off bytes) }

/-- A push (of either variant, selected by `clear`) immediately followed by
the caller storing the element's bytes through the returned slot pointer. -/
def pushWrite (clear : Bool) (h : ArenaHeap) (arr : xm_array_header_t)
    (bytes : List Nat) : ArenaHeap × xm_array_header_t :=
  let r := if clear then xm_array_push h arr else xm_array_push_noclear h arr
  (heapWrite r.1 r.2.elts ((r.2.nelts - 1) * r.2.elt_size) bytes, r.2)

/-- A sequence of pushes with no intervening pops, each writing its element. -/
def pushWriteSeq (h : ArenaHeap) (arr : xm_array_header_t) :
    List (Bool × List Nat) → ArenaHeap × xm_array_header_t
  | [] => (h, arr)
  | w :: ws => pushWriteSeq (pushWrite w.1 h arr w.2).1 (pushWrite w.1 h arr w.2).2 ws

/-- The bytes of element `i` as currently stored. -/
def readElt (h : ArenaHeap) (arr : xm_array_header_t) (i : Nat) : List (Option Nat) :=
  ((h.bufs.getD arr.elts []).drop (i * arr.elt_size)).take arr.elt_size

/-- `copy_array_hdr_core`: share the storage, but clamp the copy's capacity to
its count so that the next push is forced to reallocate. -/
def copy_array_hdr_core (arr : xm_array_header_t) : xm_array_header_t :=
  { elt_size := arr.elt_size, nelts := arr.nelts, nalloc := arr.nelts, elts := arr.elts }

/-- `xm_array_copy_hdr` (the header itself is allocated from the pool, which
does not affect the byte heap of data buffers). -/
def xm_array_copy_hdr (arr : xm_array_header_t) : xm_array_header_t :=
  copy_array_hdr_core arr

/-- The array header is consistent with the heap: the buffer exists, has
exactly `nalloc * elt_size` bytes, and `nelts ≤ nalloc`. -/
def ValidArray (h : ArenaHeap) (arr : xm_array_header_t) : Prop :=
  arr.elts < h.bufs.length ∧
  (h.bufs.getD arr.elts []).length = arr.nalloc * arr.elt_size ∧
  arr.nelts ≤ arr.nalloc

instance (h : ArenaHeap) (arr : xm_array_header_t) : Decidable (ValidArray h arr) :=
  inferInstanceAs (Decidable (arr.elts < h.bufs.length ∧
    (h.bufs.getD arr.elts []).length = arr.nalloc * arr.elt_size ∧
    arr.nelts ≤ arr.nalloc))

/-- Capacity after pushing `n` elements into an array created with capacity
`c`, per the doubling rule (fuel-driven; `n` steps of doubling always
suffice for `c ≥ 1`). -/
def capGo : Nat → Nat → Nat → Nat
  | 0, c, _ => c
  | fuel + 1, c, n => if n ≤ c then c else capGo fuel (2 * c) n

def capAfter (c n : Nat) : Nat := capGo n c n

/-! ## `xm_array_pstrcat`

Here the array is viewed at element level: an array of `char *`, where an
element is `none` (a NULL pointer) or `some s` (a pointer to the string `s`).
The function below is the net effect of the C function's second pass (the
first pass only computes the allocation size). -/

def pstrcatGo : List (Option (List Nat)) → Nat → List Nat
  | [], _ => []
  | [o], _ => o.getD []
  | o :: rest, sep => (o.getD []) ++ (if sep ≠ 0 then [sep] else []) ++ pstrcatGo rest sep

/-- `xm_array_pstrcat(p, arr, sep)`: an empty array yields the empty string
(`xm_pcalloc(p, 1)`); otherwise elements are concatenated in order (a NULL
element contributing nothing) with `sep` written between every two
consecutive element positions when `sep` is not NUL. -/
def xm_array_pstrcat (arr : List (Option (List Nat))) (sep : Nat) : List Nat :=
  if arr.length ≤ 0 then [] else pstrcatGo arr sep

/-! ## The pool cache (xm_mpool_agent.h)

Pools are identified by numbers; `xm_pool_create` may fail, modelled by a
success oracle `ok` for the init loop and by handing a fresh id to `alloc`.
`list_add` inserts at the head of `cache_list`; `list_first_entry` takes the
head. -/

structure xm_mpool_agent_t where
  cache_list : List Nat
  max_cache_n : Nat
  cur_cache_n : Nat
  pool_size : Nat
  pre_alloc_n : Nat
deriving Repr, DecidableEq

/-- The pre-allocation loop of `xm_mpool_agent_init`: `count` remaining
iterations, `i` the loop counter (also used as the id of the pool created at
iteration `i`); a successful creation is pushed onto the cache list and
counted, with no bound check. -/
def agentInitLoop (ok : Nat → Bool) : Nat → Nat → xm_mpool_agent_t → xm_mpool_agent_t
  | _, 0, mpa => mpa
  | i, count + 1, mpa =>
    let mpa' := if ok i then
        { mpa with cur_cache_n := mpa.cur_cache_n + 1, cache_list := i :: mpa.cache_list }
      else mpa
    agentInitLoop ok (i + 1) count mpa'

/-- `xm_mpool_agent_init(mpa, max_cache_n, pool_size, pre_alloc_n)` with the
0-means-default rules, then the eager pre-allocation loop. -/
def xm_mpool_agent_init (ok : Nat → Bool) (max_cache_n pool_size pre_alloc_n : Nat) :
    xm_mpool_agent_t :=
  let mc := if max_cache_n = 0 then 100000 else max_cache_n
  let ps := if pool_size = 0 then 4096 else pool_size
  let pa := if pre_alloc_n = 0 then 1000 else pre_alloc_n
  agentInitLoop ok 0 pa
    { cache_list := [], max_cache_n := mc, cur_cache_n := 0, pool_size := ps,
      pre_alloc_n := pa }

/-- `xm_mpool_agent_alloc`: pop the most recently cached pool, or create a
fresh one (`freshId`) if the cache is empty. -/
def xm_mpool_agent_alloc (mpa : xm_mpool_agent_t) (freshId : Nat) :
    xm_mpool_agent_t × Nat :=
  match mpa.cache_list with
  | mp :: rest => ({ mpa with cache_list := rest, cur_cache_n := mpa.cur_cache_n - 1 }, mp)
  | [] => (mpa, freshId)

/-- `xm_mpool_agent_free`: if below the bound, reset the pool and cache it;
otherwise destroy it outright. -/
def xm_mpool_agent_free (mpa : xm_mpool_agent_t) (mp : Nat) : xm_mpool_agent_t :=
  if mpa.cur_cache_n < mpa.max_cache_n then
    { mpa with cache_list := mp :: mpa.cache_list, cur_cache_n := mpa.cur_cache_n + 1 }
  else
    mpa

/-! ## The indexed table (xm_tables.c, table layer)

The table's embedded entry array is modelled at entry level as a
`List xm_table_entry_t` (the byte-level growth behaviour of the underlying
array is verified separately above).  Pointer loops over the bucket range
`[index_first[h], index_last[h]]` become recursion on the trip count.
Keys stored in entries are never NULL outside of `xm_table_compress`
(which marks entries for removal by nulling their key and compacts before
returning); inside the compress model that marking is a parallel `Bool`
mark list, so the entry type keeps a plain key. -/

structure xm_table_entry_t where
  key : List Nat
  val : List Nat
  key_checksum : Nat
deriving Repr, DecidableEq, Inhabited

structure xm_table_t where
  elts : List xm_table_entry_t
  index_init : Nat
  index_first : Nat → Nat
  index_last : Nat → Nat

/-- Store into one slot of an `int[32]` index array. -/
def updIdx (f : Nat → Nat) (h v : Nat) : Nat → Nat :=
  fun b => if b = h then v else f b

/-- The two-stage key test used by every bucket scan:
`checksum == e->key_checksum && !strcasecmp(e->key, key)`. -/
def entryMatches (chk : Nat) (key : List Nat) (e : xm_table_entry_t) : Bool :=
  (e.key_checksum == chk) && strcaseEq e.key key

/-- `xm_table_make(p, nelts)`: empty entry array,
`index_initialized = 0`; the `index_first` / `index_last` arrays are left
uninitialized by the C code and are never read while their bucket bit is
clear — the model picks 0.  The capacity hint only affects the byte-level
array, not the entry-level view. -/
def xm_table_make (_nelts : Nat) : xm_table_t :=
  { elts := [], index_init := 0, index_first := fun _ => 0, index_last := fun _ => 0 }

/-- The loop body of `table_reindex`, walking the entries in order with
position counter `i`. -/
def reindexAux : List xm_table_entry_t → Nat → (Nat → Nat) → (Nat → Nat) → Nat →
    ((Nat → Nat) × (Nat → Nat) × Nat)
  | [], _, fidx, lidx, ib => (fidx, lidx, ib)
  | e :: rest, i, fidx, lidx, ib =>
    let hh := TABLE_HASH e.key
    let lidx' := updIdx lidx hh i
    if Nat.testBit ib hh then reindexAux rest (i + 1) fidx lidx' ib
    else reindexAux rest (i + 1) (updIdx fidx hh i) lidx' (ib ||| (1 <<< hh))

/-- `table_reindex`: clear the bitmask and rebuild both position arrays by a
single pass over the entries. -/
def table_reindex (t : xm_table_t) : xm_table_t :=
  let r := reindexAux t.elts 0 t.index_first t.index_last 0
  { t with index_first := r.1, index_last := r.2.1, index_init := r.2.2 }

/-- Scan `n` consecutive positions starting at `i` for the first entry passing
the two-stage key test; returns its position.  This is the
`for (; next_elt <= end_elt; next_elt++)` loop shared by `get`, `set`,
`unset` and `merge`, with `n = index_last[h] + 1 - index_first[h]`. -/
def scanFindGo (elts : List xm_table_entry_t) (chk : Nat) (key : List Nat) :
    Nat → Nat → Option Nat
  | 0, _ => none
  | n + 1, i =>
    if entryMatches chk key (elts.getD i default) then some i
    else scanFindGo elts chk key n (i + 1)

def scanFind (elts : List xm_table_entry_t) (chk : Nat) (key : List Nat)
    (f l : Nat) : Option Nat :=
  scanFindGo elts chk key (l + 1 - f) f

/-- `xm_table_get` (for a non-NULL key; the C returns NULL for a NULL key):
bail out if the bucket bit is clear, otherwise scan the bucket range and
return the value of the first matching entry. -/
def xm_table_get (t : xm_table_t) (key : List Nat) : Option (List Nat) :=
  let hh := TABLE_HASH key
  if Nat.testBit t.index_init hh = false then none
  else
    match scanFind t.elts (computeChecksum key) key (t.index_first hh) (t.index_last hh) with
    | some j => some ((t.elts.getD j default).val)
    | none => none

/-- `xm_table_set`.  The overwrite branch rewrites the first match's value in
place, removes every further match inside the bucket range (the two
compaction loops shift the survivors of `(j, last]` and then the tail
`(last, nelts)` left; their net effect on the entry sequence is the
take/filter/drop expression below), and rebuilds the index iff at least one
duplicate was removed. -/
def xm_table_set (t : xm_table_t) (key val : List Nat) : xm_table_t :=
  let chk := computeChecksum key
  let hh := TABLE_HASH key
  if Nat.testBit t.index_init hh = false then
    { elts := t.elts ++ [⟨key, val, chk⟩],
      index_init := t.index_init ||| (1 <<< hh),
      index_first := updIdx t.index_first hh t.elts.length,
      index_last := updIdx t.index_last hh t.elts.length }
  else
    let f := t.index_first hh
    let l := t.index_last hh
    match scanFind t.elts chk key f l with
    | some j =>
      let e := t.elts.getD j default
      let middle := (t.elts.drop (j + 1)).take (l - j)
      let elts' := t.elts.take j ++ [{ e with val := val }]
        ++ middle.filter (fun e2 => !entryMatches chk key e2) ++ t.elts.drop (l + 1)
      let removed := (middle.filter (fun e2 => entryMatches chk key e2)).length
      let t' := { t with elts := elts' }
      if removed ≠ 0 then table_reindex t' else t'
    | none =>
      { t with elts := t.elts ++ [⟨key, val, chk⟩],
               index_last := updIdx t.index_last hh t.elts.length }

/-- `xm_table_unset`: no-op when the bucket bit is clear or no entry in the
bucket range matches; otherwise remove the first match and every further
match in the range (same compaction as `set`) and rebuild the index. -/
def xm_table_unset (t : xm_table_t) (key : List Nat) : xm_table_t :=
  let hh := TABLE_HASH key
  if Nat.testBit t.index_init hh = false then t
  else
    let chk := computeChecksum key
    let f := t.index_first hh
    let l := t.index_last hh
    match scanFind t.elts chk key f l with
    | some j =>
      let middle := (t.elts.drop (j + 1)).take (l - j)
      let elts' := t.elts.take j
        ++ middle.filter (fun e2 => !entryMatches chk key e2) ++ t.elts.drop (l + 1)
      table_reindex { t with elts := elts' }
    | none => t

/-- `xm_table_add`: unconditionally append, update `index_last[h]` to the new
position, and initialize `index_first[h]` only if the bucket was unused. -/
def xm_table_add (t : xm_table_t) (key val : List Nat) : xm_table_t :=
  let hh := TABLE_HASH key
  let chk := computeChecksum key
  if Nat.testBit t.index_init hh = false then
    { elts := t.elts ++ [⟨key, val, chk⟩],
      index_init := t.index_init ||| (1 <<< hh),
      index_first := updIdx t.index_first hh t.elts.length,
      index_last := updIdx t.index_last hh t.elts.length }
  else
    { t with elts := t.elts ++ [⟨key, val, chk⟩],
             index_last := updIdx t.index_last hh t.elts.length }

/-- `xm_table_merge`: append `", " ++ val` to the first matching entry's
value in place (no index change), or append a new entry like `set`'s
append branch. -/
def xm_table_merge (t : xm_table_t) (key val : List Nat) : xm_table_t :=
  let chk := computeChecksum key
  let hh := TABLE_HASH key
  if Nat.testBit t.index_init hh = false then
    { elts := t.elts ++ [⟨key, val, chk⟩],
      index_init := t.index_init ||| (1 <<< hh),
      index_first := updIdx t.index_first hh t.elts.length,
      index_last := updIdx t.index_last hh t.elts.length }
  else
    let f := t.index_first hh
    let l := t.index_last hh
    match scanFind t.elts chk key f l with
    | some j =>
      let e := t.elts.getD j default
      { t with elts := t.elts.set j { e with val := e.val ++ [44, 32] ++ val } }
    | none =>
      { t with elts := t.elts ++ [⟨key, val, chk⟩],
               index_last := updIdx t.index_last hh t.elts.length }

/-! ## `xm_table_do` / `xm_table_vdo`

The callback mutates its `void *rec` state and returns an `int`; it is
modelled as `σ → key → val → σ × Bool`.  The C tests `elts[i].key` for NULL
before invoking the callback in both scan modes; keys in the model are never
NULL, so that test is always true. -/

/-- The whole-table scan of `xm_table_vdo` for an empty key list:
invoke the callback on every entry, stopping at the first false return. -/
def scanAll {σ : Type} (comp : σ → List Nat → List Nat → σ × Bool) :
    σ → List xm_table_entry_t → σ × Bool
  | s, [] => (s, true)
  | s, e :: rest =>
    let r := comp s e.key e.val
    if r.2 then scanAll comp r.1 rest else (r.1, false)

/-- The per-key bucket-range scan of `xm_table_vdo`: invoke the callback on
every entry in the range passing the two-stage key test, stopping this key's
scan at the first false return. -/
def scanKeyGo {σ : Type} (comp : σ → List Nat → List Nat → σ × Bool)
    (elts : List xm_table_entry_t) (chk : Nat) (key : List Nat) :
    Nat → Nat → σ → σ × Bool
  | 0, _, s => (s, true)
  | n + 1, i, s =>
    let e := elts.getD i default
    if entryMatches chk key e then
      let r := comp s e.key e.val
      if r.2 then scanKeyGo comp elts chk key n (i + 1) r.1 else (r.1, false)
    else scanKeyGo comp elts chk key n (i + 1) s

/-- One iteration of the `do … while` over the supplied keys. -/
def vdoOneKey {σ : Type} (comp : σ → List Nat → List Nat → σ × Bool)
    (t : xm_table_t) (s : σ) (key : List Nat) : σ × Bool :=
  let hh := TABLE_HASH key
  if Nat.testBit t.index_init hh then
    scanKeyGo comp t.elts (computeChecksum key) key
      (t.index_last hh + 1 - t.index_first hh) (t.index_first hh) s
  else (s, true)

def vdoKeys {σ : Type} (comp : σ → List Nat → List Nat → σ × Bool)
    (t : xm_table_t) : List (List Nat) → σ → Bool → σ × Bool
  | [], s, acc => (s, acc)
  | k :: ks, s, acc =>
    let r := vdoOneKey comp t s k
    vdoKeys comp t ks r.1 (acc && r.2)

/-- `xm_table_vdo(comp, rec, t, vp)`: with no keys a single whole-table scan;
with keys, one independent scan per key, the overall result being false iff
some key's scan returned false. -/
def xm_table_vdo {σ : Type} (comp : σ → List Nat → List Nat → σ × Bool)
    (rec : σ) (t : xm_table_t) (keys : List (List Nat)) : σ × Bool :=
  match keys with
  | [] => scanAll comp rec t.elts
  | _ :: _ => vdoKeys comp t keys rec true

/-- `xm_table_do` forwards its varargs to `xm_table_vdo`. -/
def xm_table_do {σ : Type} (comp : σ → List Nat → List Nat → σ × Bool)
    (rec : σ) (t : xm_table_t) (keys : List (List Nat)) : σ × Bool :=
  xm_table_vdo comp rec t keys

/-- The callback state of `xm_table_getm`. -/
structure table_getm_t where
  first : Option (List Nat)
  merged : Option (List (Option (List Nat)))
deriving Repr, DecidableEq

/-- `table_getm_do`: remember the first value; on the second value build the
two-element merge array; afterwards keep appending. Always continues. -/
def table_getm_do (state : table_getm_t) (_key val : List Nat) :
    table_getm_t × Bool :=
  match state.first with
  | none => ({ state with first := some val }, true)
  | some fv =>
    match state.merged with
    | none => ({ state with merged := some [some fv, some val] }, true)
    | some m => ({ state with merged := some (m ++ [some val]) }, true)

/-- `xm_table_getm(p, t, key)`: iterate over the matches of one key; a single
match's value is returned directly, several are joined with `','`. -/
def xm_table_getm (t : xm_table_t) (key : List Nat) : Option (List Nat) :=
  let s := (xm_table_do table_getm_do { first := none, merged := none } t [key]).1
  match s.first with
  | none => none
  | some fv =>
    match s.merged with
    | none => some fv
    | some m => some (xm_array_pstrcat m 44)

/-! ## `xm_table_compress` and the bottom-up mergesort

The sort operates on an array of pointers to entries, modelled as a list of
positions into the entry list.  Loops that are not structurally recursive
carry explicit fuel equal to an upper bound on their trip count. -/

/-- Modelled from the spec: the duplicate-resolution policy flags passed to
`compress` / `overlap` come from xm_tables.h, which is not part of src/;
§4.2 names a merge policy (concatenate duplicate values) and an overwrite
policy (keep the last value).  Only their distinctness matters to the code. -/
def XM_OVERLAP_TABLES_MERGE : Nat := 1

/-- Modelled from the spec: the overwrite policy flag (see
`XM_OVERLAP_TABLES_MERGE`). -/
def XM_OVERLAP_TABLES_SET : Nat := 0

def entryKeyAt (elts : List xm_table_entry_t) (i : Nat) : List Nat :=
  (elts.getD i default).key

/-- First pass of `table_mergesort`: sort adjacent pairs by swapping a pair
that compares greater. -/
def pairPass (elts : List xm_table_entry_t) : List Nat → List Nat
  | i :: j :: rest =>
    (if strcaseGT (entryKeyAt elts i) (entryKeyAt elts j) then [j, i] else [i, j])
      ++ pairPass elts rest
  | rest => rest

/-- Merge two sorted blocks of positions (the `for (;;)` merge loop); fuel
bounds the iteration count by the combined block length. -/
def mergeTwo (elts : List xm_table_entry_t) : Nat → List Nat → List Nat → List Nat
  | 0, as, bs => as ++ bs
  | _ + 1, [], bs => bs
  | _ + 1, a :: as, [] => a :: as
  | fuel + 1, a :: as, b :: bs =>
    if strcaseGT (entryKeyAt elts a) (entryKeyAt elts b)
    then b :: mergeTwo elts fuel (a :: as) bs
    else a :: mergeTwo elts fuel as (b :: bs)

/-- One merging pass at block size `b`: merge consecutive pairs of blocks;
a final remainder of at most `b` elements is copied through unchanged. -/
def mergePassGo (elts : List xm_table_entry_t) (b : Nat) : Nat → List Nat → List Nat
  | 0, vs => vs
  | fuel + 1, vs =>
    if vs.length ≤ b then vs
    else mergeTwo elts vs.length (vs.take b) ((vs.drop b).take b)
      ++ mergePassGo elts b fuel (vs.drop (b + b))

/-- Outer loop of `table_mergesort`: double the block size until it covers
the whole sequence. -/
def mergesortOuter (elts : List xm_table_entry_t) (n : Nat) :
    Nat → List Nat → Nat → List Nat
  | 0, vs, _ => vs
  | fuel + 1, vs, b =>
    if b < n then mergesortOuter elts n fuel (mergePassGo elts b vs.length vs) (b + b)
    else vs

/-- `table_mergesort` on an array of entry positions. -/
def table_mergesort (elts : List xm_table_entry_t) (values : List Nat) : List Nat :=
  mergesortOuter elts values.length values.length (pairPass elts values) 2

/-- The duplicate-run key test of `compress`:
checksum equality then full case-insensitive comparison, of the entry at
position `i` against the entry at position `last`. -/
def keyEqAt (elts : List xm_table_entry_t) (i lastp : Nat) : Bool :=
  ((elts.getD i default).key_checksum == (elts.getD lastp default).key_checksum)
    && strcaseEq (elts.getD i default).key (elts.getD lastp default).key

/-- The merged value of a duplicate run: values joined with `", "`
(the `new_val` construction of the merge policy). -/
def joinRunVals (elts : List xm_table_entry_t) : List Nat → List Nat
  | [] => []
  | [i] => (elts.getD i default).val
  | i :: rest => (elts.getD i default).val ++ [44, 32] ++ joinRunVals elts rest

def setValAt (elts : List xm_table_entry_t) (i : Nat) (v : List Nat) :
    List xm_table_entry_t :=
  elts.set i { elts.getD i default with val := v }

/-- Marking an entry's key NULL in the C is modelled by a parallel mark
list. -/
def markAll (marks : List Bool) (ps : List Nat) : List Bool :=
  ps.foldl (fun m p => m.set p true) marks

/-- The duplicate-processing loop of `compress` over the sorted position
list: `lastp` is the current run head (`last` in the C); on a run of equal
keys the head's value is rewritten per the policy and the rest of the run is
marked for removal; fuel bounds the trip count by the list length. -/
def compressRuns (flags : Nat) : Nat → Nat → List Nat →
    List xm_table_entry_t → List Bool → Bool →
    (List xm_table_entry_t × List Bool × Bool)
  | 0, _, _, elts, marks, dups => (elts, marks, dups)
  | _ + 1, _, [], elts, marks, dups => (elts, marks, dups)
  | fuel + 1, lastp, nxt :: rest, elts, marks, dups =>
    if keyEqAt elts nxt lastp then
      let dupTail := rest.takeWhile (fun p => keyEqAt elts p lastp)
      let rest' := rest.drop dupTail.length
      let run := lastp :: nxt :: dupTail
      let newVal := if flags == XM_OVERLAP_TABLES_MERGE then joinRunVals elts run
        else (elts.getD ((nxt :: dupTail).getLastD 0) default).val
      compressRuns flags fuel lastp rest' (setValAt elts lastp newVal)
        (markAll marks (nxt :: dupTail)) true
    else
      compressRuns flags fuel nxt rest elts marks dups

/-- `xm_table_compress(t, flags)`: no-op on at most one entry; otherwise sort
entry positions, collapse duplicate-key runs per the policy, compact out the
marked entries if any were found, and rebuild the index. -/
def xm_table_compress (t : xm_table_t) (flags : Nat) : xm_table_t :=
  if t.elts.length ≤ 1 then t
  else
    let sorted := table_mergesort t.elts (List.range t.elts.length)
    match sorted with
    | [] => table_reindex t
    | s0 :: srest =>
      let r := compressRuns flags (srest.length + 1) s0 srest t.elts
        (List.replicate t.elts.length false) false
      let elts'' := if r.2.2 then
          ((r.1.zip r.2.1).filter (fun em => !em.2)).map (fun em => em.1)
        else r.1
      table_reindex { t with elts := elts'' }

/-! ## Specification-side descriptions used to state the table claims -/

/-- Position of the first element satisfying `p`. -/
def firstIdx {α : Type} (p : α → Bool) : List α → Option Nat
  | [] => none
  | a :: as => if p a then some 0 else (firstIdx p as).map (· + 1)

/-- The entry-list effect of `xm_table_set` (derived under `WF` below):
no match — append; match at the first matching position — overwrite its
value there and drop every later match. -/
def listSetSpec (elts : List xm_table_entry_t) (key val : List Nat) :
    List xm_table_entry_t :=
  match firstIdx (fun e => strcaseEq e.key key) elts with
  | none => elts ++ [⟨key, val, computeChecksum key⟩]
  | some j =>
    elts.take j ++ [{ elts.getD j default with val := val }]
      ++ (elts.drop (j + 1)).filter (fun e => !strcaseEq e.key key)

/-- Table well-formedness: every stored key is a well-formed C string and its
stored checksum is the checksum of that key; every entry position lies inside
its bucket's index range with the bucket bit set; every initialized bucket's
range is ordered and within the entry array. -/
def WF (t : xm_table_t) : Prop :=
  (∀ e ∈ t.elts, KeyValid e.key ∧ e.key_checksum = computeChecksum e.key) ∧
  (∀ i, i < t.elts.length →
    Nat.testBit t.index_init (TABLE_HASH (t.elts.getD i default).key) = true ∧
    t.index_first (TABLE_HASH (t.elts.getD i default).key) ≤ i ∧
    i ≤ t.index_last (TABLE_HASH (t.elts.getD i default).key)) ∧
  (∀ hh, hh < 32 → Nat.testBit t.index_init hh = true →
    t.index_first hh ≤ t.index_last hh ∧ t.index_last hh < t.elts.length)

instance (t : xm_table_t) : Decidable (WF t) :=
  inferInstanceAs (Decidable
    ((∀ e ∈ t.elts, KeyValid e.key ∧ e.key_checksum = computeChecksum e.key) ∧
    (∀ i, i < t.elts.length →
      Nat.testBit t.index_init (TABLE_HASH (t.elts.getD i default).key) = true ∧
      t.index_first (TABLE_HASH (t.elts.getD i default).key) ≤ i ∧
      i ≤ t.index_last (TABLE_HASH (t.elts.getD i default).key)) ∧
    (∀ hh, hh < 32 → Nat.testBit t.index_init hh = true →
      t.index_first hh ≤ t.index_last hh ∧ t.index_last hh < t.elts.length)))

/-- The per-key scan of `xm_table_vdo`, as the spec describes it: the
callback visits exactly the case-insensitive matches of the key, in table
order, stopping that key's scan at the first false return. -/
def vdoSpecOneKey {σ : Type} (comp : σ → List Nat → List Nat → σ × Bool)
    (s : σ) (elts : List xm_table_entry_t) (key : List Nat) : σ × Bool :=
  scanAll comp s (elts.filter (fun e => strcaseEq e.key key))

def vdoSpecKeys {σ : Type} (comp : σ → List Nat → List Nat → σ × Bool)
    (elts : List xm_table_entry_t) : List (List Nat) → σ → Bool → σ × Bool
  | [], s, acc => (s, acc)
  | k :: ks, s, acc =>
    let r := vdoSpecOneKey comp s elts k
    vdoSpecKeys comp elts ks r.1 (acc && r.2)

/-- The specification-side description of `xm_table_vdo`. -/
def vdoSpec {σ : Type} (comp : σ → List Nat → List Nat → σ × Bool)
    (rec : σ) (t : xm_table_t) (keys : List (List Nat)) : σ × Bool :=
  match keys with
  | [] => scanAll comp rec t.elts
  | _ :: _ => vdoSpecKeys comp t.elts keys rec true

/-! ## Case-insensitive equality: basic lemmas -/

theorem lcase_zero : lcase 0 = 0 := by decide

theorem lcase_ne_zero {b : Nat} (h : b ≠ 0) : lcase b ≠ 0 := by
  unfold lcase; split <;> omega

theorem strcaseEq_iff_map : ∀ (a b : List Nat), KeyValid a → KeyValid b →
    (strcaseEq a b = true ↔ a.map lcase = b.map lcase)
  | [], [], _, _ => by simp [strcaseEq, strcasecmpM]
  | [], y :: ys, _, hb => by
    have hy : lcase y ≠ 0 := lcase_ne_zero (by have := hb y (by simp); omega)
    simp only [strcaseEq, strcasecmpM, List.map, List.map_nil]
    constructor
    · intro h
      exfalso
      have h0 : (0 : Int) - (lcase y : Int) = 0 := beq_iff_eq.mp h
      omega
    · intro h; simp at h
  | x :: xs, [], ha, _ => by
    have hx : lcase x ≠ 0 := lcase_ne_zero (by have := ha x (by simp); omega)
    simp only [strcaseEq, strcasecmpM, List.map, List.map_nil]
    constructor
    · intro h
      exfalso
      have h0 : (lcase x : Int) = 0 := beq_iff_eq.mp h
      omega
    · intro h; simp at h
  | x :: xs, y :: ys, ha, hb => by
    have ha' : KeyValid xs := fun c hc => ha c (by simp [hc])
    have hb' : KeyValid ys := fun c hc => hb c (by simp [hc])
    simp only [strcaseEq, strcasecmpM, List.map]
    by_cases hxy : lcase x = lcase y
    · simp only [if_pos hxy, hxy, List.cons.injEq, true_and]
      exact (strcaseEq_iff_map xs ys ha' hb').trans (by simp [strcaseEq])
    · simp only [if_neg hxy]
      constructor
      · intro h
        exfalso
        have h0 : (lcase x : Int) - (lcase y : Int) = 0 := beq_iff_eq.mp h
        have : lcase x = lcase y := by omega
        exact hxy this
      · intro h
        exact absurd ((List.cons.injEq _ _ _ _ ▸ h).1) hxy

theorem strcaseEq_refl (a : List Nat) : strcaseEq a a = true := by
  induction a with
  | nil => decide
  | cons x xs ih => simp only [strcaseEq, strcasecmpM, if_pos rfl]; exact ih

theorem strcaseEq_symm {a b : List Nat} (ha : KeyValid a) (hb : KeyValid b)
    (h : strcaseEq a b = true) : strcaseEq b a = true :=
  (strcaseEq_iff_map b a hb ha).mpr ((strcaseEq_iff_map a b ha hb).mp h).symm

/-- Pointwise consequence of equality of the case-folded byte lists, through
`byteAt` (positions past the end read as 0 on both sides). -/
theorem map_lcase_byteAt : ∀ (a b : List Nat), a.map lcase = b.map lcase →
    ∀ i, lcase (byteAt a i) = lcase (byteAt b i)
  | [], [], _, _ => rfl
  | [], _ :: _, hmap, _ => by simp at hmap
  | _ :: _, [], hmap, _ => by simp at hmap
  | x :: xs, y :: ys, hmap, i => by
    simp only [List.map_cons, List.cons.injEq] at hmap
    cases i with
    | zero => exact hmap.1
    | succ j => exact map_lcase_byteAt xs ys hmap.2 j

/-- Pointwise consequence of case-insensitive equality, through `byteAt`. -/
theorem strcaseEq_byteAt {a b : List Nat} (ha : KeyValid a) (hb : KeyValid b)
    (h : strcaseEq a b = true) : ∀ i, lcase (byteAt a i) = lcase (byteAt b i) :=
  map_lcase_byteAt a b ((strcaseEq_iff_map a b ha hb).mp h)

theorem byteAt_lt {k : List Nat} (hk : KeyValid k) (i : Nat) : byteAt k i < 256 := by
  unfold byteAt
  by_cases h : i < k.length
  · rw [List.getD_eq_getElem _ _ h]
    exact (hk _ (List.getElem_mem h)).2
  · rw [List.getD_eq_default _ _ (by omega)]
    omega

/-! ## The checksum never produces a false negative (claim C10 machinery) -/

theorem lcase_rel {b b' : Nat} (hb : b < 256) (hb' : b' < 256) (h : lcase b = lcase b') :
    b = b' ∨ (65 ≤ b ∧ b ≤ 90 ∧ b' = b + 32) ∨ (65 ≤ b' ∧ b' ≤ 90 ∧ b = b' + 32) := by
  unfold lcase at h
  split at h <;> split at h <;> omega

theorem testBit_letter {b : Nat} (h1 : 65 ≤ b) (h2 : b ≤ 90) :
    ∀ i, i ≠ 5 → Nat.testBit (b + 32) i = Nat.testBit b i := by
  intro i hi
  by_cases hlt : i < 8
  · exact (by decide : ∀ b : Nat, b < 91 → 65 ≤ b → ∀ i : Nat, i < 8 → i ≠ 5 →
      Nat.testBit (b + 32) i = Nat.testBit b i) b (by omega) h1 i hlt hi
  · have hp : (128 : Nat) ≤ 2 ^ i := by
      calc (128 : Nat) = 2 ^ 7 := by norm_num
      _ ≤ 2 ^ i := Nat.pow_le_pow_right (by norm_num) (by omega)
    rw [Nat.testBit_lt_two_pow (by omega), Nat.testBit_lt_two_pow (by omega)]

theorem cToU32_eq_zero {b : Nat} : cToU32 b = 0 ↔ b = 0 := by
  unfold cToU32; split <;> omega

theorem byteRel_of_lcase {b b' : Nat} (hb : b < 256) (hb' : b' < 256)
    (h : lcase b = lcase b') : byteRel b b' := by
  rcases lcase_rel hb hb' h with rfl | ⟨h1, h2, rfl⟩ | ⟨h1, h2, rfl⟩
  · exact ⟨Iff.rfl, fun i _ => rfl⟩
  · refine ⟨by rw [cToU32_eq_zero, cToU32_eq_zero]; omega, ?_⟩
    intro i hi
    have e1 : cToU32 b = b := by unfold cToU32; rw [if_pos (by omega)]
    have e2 : cToU32 (b + 32) = b + 32 := by unfold cToU32; rw [if_pos (by omega)]
    rw [e1, e2]
    exact (testBit_letter h1 h2 i hi).symm
  · refine ⟨by rw [cToU32_eq_zero, cToU32_eq_zero]; omega, ?_⟩
    intro i hi
    have e1 : cToU32 b' = b' := by unfold cToU32; rw [if_pos (by omega)]
    have e2 : cToU32 (b' + 32) = b' + 32 := by unfold cToU32; rw [if_pos (by omega)]
    rw [e1, e2]
    exact testBit_letter h1 h2 i hi

theorem checksumBytes_congr {b0 b1 b2 b3 b0' b1' b2' b3' : Nat}
    (h0 : byteRel b0 b0') (h1 : byteRel b1 b1') (h2 : byteRel b2 b2') (h3 : byteRel b3 b3') :
    checksumBytes b0 b1 b2 b3 = checksumBytes b0' b1' b2' b3' := by
  obtain ⟨z0, t0⟩ := h0
  obtain ⟨z1, t1⟩ := h1
  obtain ⟨z2, t2⟩ := h2
  obtain ⟨z3, t3⟩ := h3
  unfold checksumBytes
  by_cases hb0 : cToU32 b0 = 0
  · rw [if_pos hb0, if_pos (z0.mp hb0), hb0, z0.mp hb0]
  · rw [if_neg hb0, if_neg (fun hz => hb0 (z0.mpr hz))]
    by_cases hb1 : cToU32 b1 = 0
    · rw [if_pos hb1, if_pos (z1.mp hb1), hb1, z1.mp hb1]
      apply Nat.eq_of_testBit_eq
      intro i
      rcases Decidable.em (i = 5 ∨ i = 13 ∨ i = 21 ∨ i = 29) with hmask | hmask
      · have hm : Nat.testBit CASE_MASK i = false := by
          rcases hmask with rfl | rfl | rfl | rfl <;> decide
        simp [Nat.testBit_land, hm]
      · push_neg at hmask
        obtain ⟨n5, n13, n21, n29⟩ := hmask
        have e0 : Nat.testBit (cToU32 b0) (i - 8 - 8 - 8) =
            Nat.testBit (cToU32 b0') (i - 8 - 8 - 8) := t0 _ (by omega)
        simp only [Nat.testBit_land, Nat.testBit_lor, Nat.testBit_mod_two_pow,
          Nat.testBit_shiftLeft, e0]
    · rw [if_neg hb1, if_neg (fun hz => hb1 (z1.mpr hz))]
      by_cases hb2 : cToU32 b2 = 0
      · rw [if_pos hb2, if_pos (z2.mp hb2), hb2, z2.mp hb2]
        apply Nat.eq_of_testBit_eq
        intro i
        rcases Decidable.em (i = 5 ∨ i = 13 ∨ i = 21 ∨ i = 29) with hmask | hmask
        · have hm : Nat.testBit CASE_MASK i = false := by
            rcases hmask with rfl | rfl | rfl | rfl <;> decide
          simp [Nat.testBit_land, hm]
        · push_neg at hmask
          obtain ⟨n5, n13, n21, n29⟩ := hmask
          have e0 : Nat.testBit (cToU32 b0) (i - 8 - 8 - 8) =
              Nat.testBit (cToU32 b0') (i - 8 - 8 - 8) := t0 _ (by omega)
          have e1 : Nat.testBit (cToU32 b1) (i - 8 - 8) =
              Nat.testBit (cToU32 b1') (i - 8 - 8) := t1 _ (by omega)
          simp only [Nat.testBit_land, Nat.testBit_lor, Nat.testBit_mod_two_pow,
            Nat.testBit_shiftLeft, e0, e1]
      · rw [if_neg hb2, if_neg (fun hz => hb2 (z2.mpr hz))]
        apply Nat.eq_of_testBit_eq
        intro i
        rcases Decidable.em (i = 5 ∨ i = 13 ∨ i = 21 ∨ i = 29) with hmask | hmask
        · have hm : Nat.testBit CASE_MASK i = false := by
            rcases hmask with rfl | rfl | rfl | rfl <;> decide
          simp [Nat.testBit_land, hm]
        · push_neg at hmask
          obtain ⟨n5, n13, n21, n29⟩ := hmask
          have e0 : Nat.testBit (cToU32 b0) (i - 8 - 8 - 8) =
              Nat.testBit (cToU32 b0') (i - 8 - 8 - 8) := t0 _ (by omega)
          have e1 : Nat.testBit (cToU32 b1) (i - 8 - 8) =
              Nat.testBit (cToU32 b1') (i - 8 - 8) := t1 _ (by omega)
          have e2 : Nat.testBit (cToU32 b2) (i - 8) =
              Nat.testBit (cToU32 b2') (i - 8) := t2 _ (by omega)
          have e3 : Nat.testBit (cToU32 b3) i = Nat.testBit (cToU32 b3') i := t3 _ n5
          simp only [Nat.testBit_land, Nat.testBit_lor, Nat.testBit_mod_two_pow,
            Nat.testBit_shiftLeft, e0, e1, e2, e3]

/-- Case-insensitively equal keys have equal checksums: the fast-reject
filter in `get` / `set` / `unset` / `merge` / `compress` never rejects a
genuinely matching entry. -/
theorem computeChecksum_congr {a b : List Nat} (ha : KeyValid a) (hb : KeyValid b)
    (h : strcaseEq a b = true) : computeChecksum a = computeChecksum b := by
  have hby := strcaseEq_byteAt ha hb h
  unfold computeChecksum
  exact checksumBytes_congr
    (byteRel_of_lcase (byteAt_lt ha 0) (byteAt_lt hb 0) (hby 0))
    (byteRel_of_lcase (byteAt_lt ha 1) (byteAt_lt hb 1) (hby 1))
    (byteRel_of_lcase (byteAt_lt ha 2) (byteAt_lt hb 2) (hby 2))
    (byteRel_of_lcase (byteAt_lt ha 3) (byteAt_lt hb 3) (hby 3))

theorem land31_eq_mod (x : Nat) : x &&& 31 = x % 32 := by
  apply Nat.eq_of_testBit_eq
  intro i
  rw [Nat.testBit_land]
  have h31 : (31 : Nat) = 2 ^ 5 - 1 := by norm_num
  have h32 : (32 : Nat) = 2 ^ 5 := by norm_num
  rw [h31, h32, Nat.testBit_two_pow_sub_one, Nat.testBit_mod_two_pow]
  rw [Bool.and_comm]

/-- Case-insensitively equal keys fall in the same hash bucket (the hash
masks with 0x1f, which discards the case bit 0x20 of the first byte). -/
theorem TABLE_HASH_congr {a b : List Nat} (ha : KeyValid a) (hb : KeyValid b)
    (h : strcaseEq a b = true) : TABLE_HASH a = TABLE_HASH b := by
  have h0 := strcaseEq_byteAt ha hb h 0
  have r := lcase_rel (byteAt_lt ha 0) (byteAt_lt hb 0) h0
  unfold TABLE_HASH
  rw [land31_eq_mod, land31_eq_mod]
  rcases r with e | ⟨h1, h2, e⟩ | ⟨h1, h2, e⟩ <;> rw [e] <;> omega

/-! ## Claim C10 -/

/-- C10: keys that are equal under full case-insensitive comparison have
equal 4-byte case-folded prefix checksums, so the checksum fast-reject test
run before `strcasecmp` in `get`, `set`, `unset`, `merge` and `compress`
never filters out a genuinely matching entry. -/
theorem claim_C10 (k1 k2 : List Nat) (h1 : KeyValid k1) (h2 : KeyValid k2)
    (heq : strcaseEq k1 k2 = true) :
    computeChecksum k1 = computeChecksum k2 ∧
    (∀ e : xm_table_entry_t, e.key = k2 → e.key_checksum = computeChecksum e.key →
      entryMatches (computeChecksum k1) k1 e = true) := by
  refine ⟨computeChecksum_congr h1 h2 heq, ?_⟩
  intro e hk hchk
  have hs : strcaseEq e.key k1 = true := by
    rw [hk]; exact strcaseEq_symm h1 h2 heq
  have hc : e.key_checksum = computeChecksum k1 := by
    rw [hchk, hk]; exact (computeChecksum_congr h1 h2 heq).symm
  simp [entryMatches, hs, hc]

theorem claim_C10_witness :
    KeyValid [97] ∧ KeyValid [65] ∧ strcaseEq [97] [65] = true ∧
    computeChecksum [97] = computeChecksum [65] :=
  ⟨by decide, by decide, by decide,
    (claim_C10 [97] [65] (by decide) (by decide) (by decide)).1⟩

/-! ## Claim C2 -/

/-- C2 counterexample: on the array `["a", NULL, "b"]` with separator `','`
the function yields `"a,,b"`, not `"a,b"` — the separator is written between
every two consecutive element positions, including positions holding NULL. -/
theorem claim_C2_counterexample :
    xm_array_pstrcat [some [97], none, some [98]] 44 = [97, 44, 44, 98] ∧
    xm_array_pstrcat [some [97], none, some [98]] 44 ≠ [97, 44, 98] := by
  decide

theorem intercalate_cons_cons (s x y : List Nat) (l : List (List Nat)) :
    List.intercalate s (x :: y :: l) = x ++ s ++ List.intercalate s (y :: l) := by
  simp [List.intercalate, List.intersperse]

theorem intercalate_cons_of_ne_nil (s x : List Nat) (l : List (List Nat)) (h : l ≠ []) :
    List.intercalate s (x :: l) = x ++ s ++ List.intercalate s l := by
  cases l with
  | nil => cases h rfl
  | cons y ys => exact intercalate_cons_cons s x y ys

theorem pstrcatGo_eq_intercalate : ∀ (arr : List (Option (List Nat))) (sep : Nat),
    pstrcatGo arr sep =
      List.intercalate (if sep = 0 then [] else [sep]) (arr.map (fun o => o.getD []))
  | [], sep => by simp [pstrcatGo, List.intercalate, List.intersperse]
  | [o], sep => by simp [pstrcatGo, List.intercalate, List.intersperse]
  | o :: o2 :: rest, sep => by
    have ih := pstrcatGo_eq_intercalate (o2 :: rest) sep
    simp only [pstrcatGo, ih, List.map_cons]
    rw [intercalate_cons_cons]
    by_cases hs : sep = 0 <;> simp [hs]

/-- C2 amended: `xm_array_pstrcat` concatenates the elements in order, a NULL
element contributing the empty string, writing the separator between every
two consecutive element positions (when the separator is not NUL); an empty
array yields the empty string (never NULL).  In particular
`["a", NULL, "b"]` with `','` yields `"a,,b"`. -/
theorem claim_C2_amended (arr : List (Option (List Nat))) (sep : Nat) :
    xm_array_pstrcat arr sep =
      List.intercalate (if sep = 0 then [] else [sep])
        (arr.map (fun o => o.getD [])) := by
  unfold xm_array_pstrcat
  split
  · rename_i hlen
    have : arr = [] := List.length_eq_zero.mp (by omega)
    subst this
    simp [List.intercalate, List.intersperse]
  · exact pstrcatGo_eq_intercalate arr sep

/-! ## Claim C1 -/

/-- C1 counterexample: `initialize(max_count = 2, size = 4096,
preallocate_count = 5)` with all five creations succeeding leaves
`cur_cache_n = 5 > 2 = max_cache_n`: the init loop caches every successful
pre-allocation without checking the bound. -/
theorem claim_C1_counterexample :
    (xm_mpool_agent_init (fun _ => true) 2 4096 5).cur_cache_n = 5 ∧
    ¬ (xm_mpool_agent_init (fun _ => true) 2 4096 5).cur_cache_n ≤ 2 := by
  decide

theorem agentInitLoop_count (ok : Nat → Bool) : ∀ (count i : Nat) (mpa : xm_mpool_agent_t),
    (agentInitLoop ok i count mpa).cur_cache_n =
      mpa.cur_cache_n + ((List.range' i count).filter ok).length
  | 0, i, mpa => by simp [agentInitLoop]
  | count + 1, i, mpa => by
    rw [agentInitLoop, List.range'_succ]
    by_cases hok : ok i
    · rw [if_pos hok, agentInitLoop_count ok count (i + 1)]
      simp [List.filter_cons, hok] <;> omega
    · rw [if_neg hok, agentInitLoop_count ok count (i + 1)]
      simp [List.filter_cons, hok] <;> omega

/-- C1 amended: `release` and `acquire` preserve the bound
`cur_cache_n ≤ max_cache_n` (`release` increments the count only when it is
strictly below the bound, otherwise it destroys the pool; `acquire` never
increases it), but `initialize` does not enforce the bound: it caches one
pool per successful creation among the (defaulted) `preallocate_count`
attempts, so the cached count right after initialization equals the number
of successful creations and can exceed `max_count`. -/
theorem claim_C1_amended :
    (∀ (mpa : xm_mpool_agent_t) (mp : Nat), mpa.cur_cache_n ≤ mpa.max_cache_n →
      (xm_mpool_agent_free mpa mp).cur_cache_n ≤ mpa.max_cache_n) ∧
    (∀ (mpa : xm_mpool_agent_t) (freshId : Nat),
      (xm_mpool_agent_alloc mpa freshId).1.cur_cache_n ≤ mpa.cur_cache_n) ∧
    (∀ (ok : Nat → Bool) (mc ps pa : Nat),
      (xm_mpool_agent_init ok mc ps pa).cur_cache_n =
        ((List.range (if pa = 0 then 1000 else pa)).filter ok).length) := by
  refine ⟨?_, ?_, ?_⟩
  · intro mpa mp hle
    unfold xm_mpool_agent_free
    split
    · rename_i hlt
      show mpa.cur_cache_n + 1 ≤ mpa.max_cache_n
      omega
    · exact hle
  · intro mpa freshId
    unfold xm_mpool_agent_alloc
    rcases hcl : mpa.cache_list with _ | ⟨a, rest⟩
    · simp [hcl]
    · simp only [hcl]
      show mpa.cur_cache_n - 1 ≤ mpa.cur_cache_n
      omega
  · intro ok mc ps pa
    unfold xm_mpool_agent_init
    rw [agentInitLoop_count]
    rw [List.range_eq_range']
    simp

theorem claim_C1_amended_witness :
    (⟨[], 2, 1, 4096, 1⟩ : xm_mpool_agent_t).cur_cache_n ≤
      (⟨[], 2, 1, 4096, 1⟩ : xm_mpool_agent_t).max_cache_n ∧
    (xm_mpool_agent_free ⟨[], 2, 1, 4096, 1⟩ 7).cur_cache_n ≤
      (⟨[], 2, 1, 4096, 1⟩ : xm_mpool_agent_t).max_cache_n :=
  ⟨by decide, claim_C1_amended.1 ⟨[], 2, 1, 4096, 1⟩ 7 (by decide)⟩

/-! ## List helper lemmas for the byte-heap array proofs -/

theorem getD_set_self {α : Type _} (l : List α) (n : Nat) (a d : α) (h : n < l.length) :
    (l.set n a).getD n d = a := by
  simp [List.getD_eq_getElem?_getD, List.getElem?_set_self, h]

theorem getD_set_ne {α : Type _} (l : List α) (m n : Nat) (a d : α) (h : m ≠ n) :
    (l.set m a).getD n d = l.getD n d := by
  simp [List.getD_eq_getElem?_getD, List.getElem?_set_ne h]

theorem drop_take_append {α : Type _} (A B : List α) (i n : Nat) (h : i + n ≤ A.length) :
    ((A ++ B).drop i).take n = (A.drop i).take n := by
  rw [List.drop_append_eq_append_drop, List.take_append_eq_append_take]
  have h1 : i - A.length = 0 := by omega
  have h2 : n - (A.drop i).length = 0 := by rw [List.length_drop]; omega
  rw [h1, h2, List.take_zero, List.append_nil]

theorem take_drop_take {α : Type _} (A : List α) (m i n : Nat) (h : i + n ≤ m) :
    ((A.take m).drop i).take n = (A.drop i).take n := by
  rw [List.drop_take, List.take_take]
  congr 1
  omega

/-! ## `writeBytes` region lemmas -/

theorem writeBytes_length (buf : List (Option Nat)) (off : Nat) (bytes : List Nat)
    (h : off + bytes.length ≤ buf.length) :
    (writeBytes buf off bytes).length = buf.length := by
  unfold writeBytes
  simp only [List.length_append, List.length_take, List.length_drop, List.length_map]
  omega

theorem writeBytes_read_lt (buf : List (Option Nat)) (off : Nat) (bytes : List Nat)
    (i n : Nat) (hin : i + n ≤ off) (hoff : off ≤ buf.length) :
    ((writeBytes buf off bytes).drop i).take n = (buf.drop i).take n := by
  unfold writeBytes
  have hA : (buf.take off).length = off := by rw [List.length_take]; omega
  rw [List.append_assoc, drop_take_append _ _ _ _ (by omega), take_drop_take _ _ _ _ hin]

theorem writeBytes_read_at (buf : List (Option Nat)) (off : Nat) (bytes : List Nat)
    (hoff : off ≤ buf.length) :
    ((writeBytes buf off bytes).drop off).take bytes.length = bytes.map some := by
  unfold writeBytes
  have hA : (buf.take off).length = off := by rw [List.length_take]; omega
  rw [List.append_assoc, List.drop_append_eq_append_drop, hA, Nat.sub_self, List.drop_zero]
  have hnil : (buf.take off).drop off = [] := by
    apply List.drop_eq_nil_of_le
    omega
  rw [hnil, List.nil_append, List.take_append_eq_append_take]
  have hM : (bytes.map some).length = bytes.length := by simp
  rw [hM, Nat.sub_self, List.take_zero, List.append_nil, List.take_of_length_le (by omega)]

/-! ## Capacity-doubling lemmas -/

theorem capGo_fuel : ∀ (fuel c n : Nat), 1 ≤ c → n ≤ c + fuel →
    capGo (fuel + 1) c n = capGo fuel c n
  | 0, c, n, _, hn => by
    rw [capGo, capGo, if_pos (by omega)]
  | fuel + 1, c, n, hc, hn => by
    rw [capGo]
    conv_rhs => rw [capGo]
    by_cases h : n ≤ c
    · rw [if_pos h, if_pos h]
    · rw [if_neg h, if_neg h]
      exact capGo_fuel fuel (2 * c) n (by omega) (by omega)

theorem capAfter_of_le {c n : Nat} (h : n ≤ c) : capAfter c n = c := by
  unfold capAfter
  cases n with
  | zero => rfl
  | succ m => rw [capGo, if_pos h]

theorem capAfter_of_gt {c n : Nat} (hc : 1 ≤ c) (h : c < n) :
    capAfter c n = capAfter (2 * c) n := by
  unfold capAfter
  cases n with
  | zero => omega
  | succ m =>
    rw [capGo, if_neg (by omega)]
    exact (capGo_fuel m (2 * c) (m + 1) (by omega) (by omega)).symm

theorem capAfter_step_base {c k : Nat} (hc : 1 ≤ c) (hk : k ≤ c) :
    (k < capAfter c k → capAfter c (k + 1) = capAfter c k) ∧
    (capAfter c k = k → capAfter c (k + 1) = 2 * k) := by
  rw [capAfter_of_le hk]
  constructor
  · intro hlt
    rw [capAfter_of_le (by omega)]
  · intro heq
    subst heq
    rw [capAfter_of_gt hc (by omega), capAfter_of_le (by omega)]

theorem capAfter_step (k : Nat) : ∀ (c : Nat), 1 ≤ c →
    (k < capAfter c k → capAfter c (k + 1) = capAfter c k) ∧
    (capAfter c k = k → capAfter c (k + 1) = 2 * k) := by
  have H : ∀ (d c : Nat), k - c ≤ d → 1 ≤ c →
      (k < capAfter c k → capAfter c (k + 1) = capAfter c k) ∧
      (capAfter c k = k → capAfter c (k + 1) = 2 * k) := by
    intro d
    induction d with
    | zero =>
      intro c hd hc
      exact capAfter_step_base hc (by omega)
    | succ d ih =>
      intro c hd hc
      by_cases hk : k ≤ c
      · exact capAfter_step_base hc hk
      · have step := ih (2 * c) (by omega) (by omega)
        rw [capAfter_of_gt hc (by omega), capAfter_of_gt hc (by omega)]
        exact step
  exact fun c hc => H (k - c) c (le_refl _) hc

/-! ## `pushWrite` specification -/

/-- The fill byte of a growth reallocation: `xm_pcalloc`-zeroed for the
clearing push, uninitialized for the non-clearing push. -/
def growFill (clear : Bool) : Option Nat := if clear then some 0 else none

theorem pushWrite_grow_eq (clear : Bool) (h : ArenaHeap) (arr : xm_array_header_t)
    (bytes : List Nat) (hfull : arr.nelts = arr.nalloc) :
    pushWrite clear h arr bytes =
      (heapWrite
        { bufs := h.bufs ++ [(h.bufs.getD arr.elts []).take (arr.nalloc * arr.elt_size)
            ++ List.replicate
                (((if arr.nalloc = 0 then 1 else arr.nalloc * 2) - arr.nalloc) * arr.elt_size)
                (growFill clear)] }
        h.bufs.length (arr.nelts * arr.elt_size) bytes,
       { arr with elts := h.bufs.length,
                  nalloc := if arr.nalloc = 0 then 1 else arr.nalloc * 2,
                  nelts := arr.nelts + 1 }) := by
  cases clear <;>
    simp only [pushWrite, xm_array_push, xm_array_push_noclear, if_pos hfull, heapAlloc,
      growFill, Bool.false_eq_true, if_true, if_false, Nat.add_sub_cancel]

theorem pushWrite_nogrow_eq (clear : Bool) (h : ArenaHeap) (arr : xm_array_header_t)
    (bytes : List Nat) (hfull : ¬ arr.nelts = arr.nalloc) :
    pushWrite clear h arr bytes =
      (heapWrite h arr.elts (arr.nelts * arr.elt_size) bytes,
       { arr with nelts := arr.nelts + 1 }) := by
  cases clear <;>
    simp only [pushWrite, xm_array_push, xm_array_push_noclear, if_neg hfull,
      Bool.false_eq_true, if_true, if_false, Nat.add_sub_cancel]

theorem writeBytes_read_at_len (buf : List (Option Nat)) (off : Nat) (bytes : List Nat)
    (n : Nat) (hn : n = bytes.length) (hoff : off ≤ buf.length) :
    ((writeBytes buf off bytes).drop off).take n = bytes.map some := by
  subst hn
  exact writeBytes_read_at buf off bytes hoff

theorem pushWrite_spec (clear : Bool) (h : ArenaHeap) (arr : xm_array_header_t)
    (bytes : List Nat) (hv : ValidArray h arr) (hlen : bytes.length = arr.elt_size) :
    ValidArray (pushWrite clear h arr bytes).1 (pushWrite clear h arr bytes).2 ∧
    (pushWrite clear h arr bytes).2.elt_size = arr.elt_size ∧
    (pushWrite clear h arr bytes).2.nelts = arr.nelts + 1 ∧
    (pushWrite clear h arr bytes).2.nalloc =
      (if arr.nelts = arr.nalloc then (if arr.nalloc = 0 then 1 else arr.nalloc * 2)
       else arr.nalloc) ∧
    (∀ i, i < arr.nelts →
      readElt (pushWrite clear h arr bytes).1 (pushWrite clear h arr bytes).2 i =
        readElt h arr i) ∧
    readElt (pushWrite clear h arr bytes).1 (pushWrite clear h arr bytes).2 arr.nelts =
      bytes.map some := by
  obtain ⟨hid, hblen, hcnt⟩ := hv
  by_cases hfull : arr.nelts = arr.nalloc
  · rw [pushWrite_grow_eq clear h arr bytes hfull]
    rw [if_pos hfull]
    have htake : (h.bufs.getD arr.elts []).take (arr.nalloc * arr.elt_size)
        = h.bufs.getD arr.elts [] := List.take_of_length_le (by omega)
    rw [htake]
    have hns : arr.nalloc + 1 ≤ (if arr.nalloc = 0 then 1 else arr.nalloc * 2) := by
      by_cases h0 : arr.nalloc = 0 <;> simp [h0] <;> omega
    have hNBlen : (h.bufs.getD arr.elts []
        ++ List.replicate
            (((if arr.nalloc = 0 then 1 else arr.nalloc * 2) - arr.nalloc) * arr.elt_size)
            (growFill clear)).length
        = (if arr.nalloc = 0 then 1 else arr.nalloc * 2) * arr.elt_size := by
      rw [List.length_append, List.length_replicate, hblen, ← Nat.add_mul]
      congr 1
      omega
    have hsucc : arr.nelts * arr.elt_size + bytes.length
        = (arr.nalloc + 1) * arr.elt_size := by
      rw [hlen, hfull, Nat.succ_mul]
    have hle : (arr.nalloc + 1) * arr.elt_size
        ≤ (if arr.nalloc = 0 then 1 else arr.nalloc * 2) * arr.elt_size :=
      Nat.mul_le_mul_right _ hns
    have hoffNB : arr.nelts * arr.elt_size + bytes.length ≤ (h.bufs.getD arr.elts []
        ++ List.replicate
            (((if arr.nalloc = 0 then 1 else arr.nalloc * 2) - arr.nalloc) * arr.elt_size)
            (growFill clear)).length := by
      rw [hNBlen]
      omega
    have hgetNB : ({ bufs := h.bufs ++ [h.bufs.getD arr.elts []
        ++ List.replicate
            (((if arr.nalloc = 0 then 1 else arr.nalloc * 2) - arr.nalloc) * arr.elt_size)
            (growFill clear)] } : ArenaHeap).bufs.getD h.bufs.length []
        = h.bufs.getD arr.elts []
        ++ List.replicate
            (((if arr.nalloc = 0 then 1 else arr.nalloc * 2) - arr.nalloc) * arr.elt_size)
            (growFill clear) := by
      rw [List.getD_append_right _ _ _ _ (le_refl _), Nat.sub_self]
      rfl
    simp only [heapWrite, hgetNB]
    have hwblen : (writeBytes (h.bufs.getD arr.elts []
        ++ List.replicate
            (((if arr.nalloc = 0 then 1 else arr.nalloc * 2) - arr.nalloc) * arr.elt_size)
            (growFill clear)) (arr.nelts * arr.elt_size) bytes).length
        = (if arr.nalloc = 0 then 1 else arr.nalloc * 2) * arr.elt_size := by
      rw [writeBytes_length _ _ _ hoffNB, hNBlen]
    have hsetlen : h.bufs.length <
        ((h.bufs ++ [h.bufs.getD arr.elts []
          ++ List.replicate
              (((if arr.nalloc = 0 then 1 else arr.nalloc * 2) - arr.nalloc) * arr.elt_size)
              (growFill clear)]).set h.bufs.length
          (writeBytes (h.bufs.getD arr.elts []
            ++ List.replicate
                (((if arr.nalloc = 0 then 1 else arr.nalloc * 2) - arr.nalloc) * arr.elt_size)
                (growFill clear)) (arr.nelts * arr.elt_size) bytes)).length := by
      rw [List.length_set, List.length_append]
      simp
    have hreadbuf : ((h.bufs ++ [h.bufs.getD arr.elts []
          ++ List.replicate
              (((if arr.nalloc = 0 then 1 else arr.nalloc * 2) - arr.nalloc) * arr.elt_size)
              (growFill clear)]).set h.bufs.length
          (writeBytes (h.bufs.getD arr.elts []
            ++ List.replicate
                (((if arr.nalloc = 0 then 1 else arr.nalloc * 2) - arr.nalloc) * arr.elt_size)
                (growFill clear)) (arr.nelts * arr.elt_size) bytes)).getD h.bufs.length []
        = writeBytes (h.bufs.getD arr.elts []
            ++ List.replicate
                (((if arr.nalloc = 0 then 1 else arr.nalloc * 2) - arr.nalloc) * arr.elt_size)
                (growFill clear)) (arr.nelts * arr.elt_size) bytes := by
      apply getD_set_self
      rw [List.length_append]
      simp
    refine ⟨⟨hsetlen, ?_,
      by show arr.nelts + 1 ≤ (if arr.nalloc = 0 then 1 else arr.nalloc * 2); omega⟩,
      trivial, trivial, trivial, ?_, ?_⟩
    · show (((h.bufs ++ _).set _ _).getD _ []).length = _
      rw [hreadbuf, hwblen]
    · intro i hi
      show (((((h.bufs ++ _).set _ _).getD _ []).drop (i * arr.elt_size)).take arr.elt_size)
        = readElt h arr i
      rw [hreadbuf]
      have hstep : i * arr.elt_size + arr.elt_size ≤ arr.nelts * arr.elt_size := by
        have hmul : (i + 1) * arr.elt_size ≤ arr.nelts * arr.elt_size :=
          Nat.mul_le_mul_right _ (by omega)
        rw [Nat.succ_mul] at hmul
        exact hmul
      rw [writeBytes_read_lt _ _ _ _ _ hstep (by omega)]
      have hblen2 : (h.bufs.getD arr.elts []).length = arr.nelts * arr.elt_size := by
        rw [hblen, hfull]
      rw [drop_take_append _ _ _ _ (by omega)]
      rfl
    · show (((((h.bufs ++ _).set _ _).getD _ []).drop (arr.nelts * arr.elt_size)).take arr.elt_size)
        = bytes.map some
      rw [hreadbuf]
      exact writeBytes_read_at_len _ _ _ _ hlen.symm (by omega)
  · rw [pushWrite_nogrow_eq clear h arr bytes hfull]
    rw [if_neg hfull]
    have hoff : arr.nelts * arr.elt_size + bytes.length ≤ arr.nalloc * arr.elt_size := by
      rw [hlen]
      have hmul : (arr.nelts + 1) * arr.elt_size ≤ arr.nalloc * arr.elt_size :=
        Nat.mul_le_mul_right _ (by omega)
      rw [Nat.succ_mul] at hmul
      exact hmul
    have hoff2 : arr.nelts * arr.elt_size + bytes.length
        ≤ (h.bufs.getD arr.elts []).length := by
      rw [hblen]
      exact hoff
    have hreadbuf : ((h.bufs.set arr.elts
          (writeBytes (h.bufs.getD arr.elts []) (arr.nelts * arr.elt_size) bytes)).getD
          arr.elts [])
        = writeBytes (h.bufs.getD arr.elts []) (arr.nelts * arr.elt_size) bytes :=
      getD_set_self _ _ _ _ hid
    simp only [heapWrite]
    refine ⟨⟨by rw [List.length_set]; exact hid, ?_,
      by show arr.nelts + 1 ≤ arr.nalloc; omega⟩, trivial, trivial, trivial, ?_, ?_⟩
    · show (((h.bufs.set _ _).getD _ []).length) = _
      rw [hreadbuf, writeBytes_length _ _ _ hoff2]
      exact hblen
    · intro i hi
      show ((((h.bufs.set _ _).getD _ []).drop (i * arr.elt_size)).take arr.elt_size)
        = readElt h arr i
      rw [hreadbuf]
      have hstep : i * arr.elt_size + arr.elt_size ≤ arr.nelts * arr.elt_size := by
        have hmul : (i + 1) * arr.elt_size ≤ arr.nelts * arr.elt_size :=
          Nat.mul_le_mul_right _ (by omega)
        rw [Nat.succ_mul] at hmul
        exact hmul
      rw [writeBytes_read_lt _ _ _ _ _ hstep (by omega)]
      rfl
    · show ((((h.bufs.set _ _).getD _ []).drop (arr.nelts * arr.elt_size)).take arr.elt_size)
        = bytes.map some
      rw [hreadbuf]
      exact writeBytes_read_at_len _ _ _ _ hlen.symm (by omega)

theorem pushWriteSeq_spec : ∀ (ws : List (Bool × List Nat)) (h : ArenaHeap)
    (arr : xm_array_header_t) (c0 : Nat) (written : List (List Nat)),
    ValidArray h arr → 1 ≤ c0 →
    arr.nelts = written.length →
    arr.nalloc = capAfter c0 written.length →
    (∀ w ∈ ws, w.2.length = arr.elt_size) →
    (∀ i, i < written.length → readElt h arr i = (written.getD i []).map some) →
    ValidArray (pushWriteSeq h arr ws).1 (pushWriteSeq h arr ws).2 ∧
    (pushWriteSeq h arr ws).2.elt_size = arr.elt_size ∧
    (pushWriteSeq h arr ws).2.nelts = written.length + ws.length ∧
    (pushWriteSeq h arr ws).2.nalloc = capAfter c0 (written.length + ws.length) ∧
    (∀ i, i < written.length + ws.length →
      readElt (pushWriteSeq h arr ws).1 (pushWriteSeq h arr ws).2 i =
        ((written ++ ws.map (fun w => w.2)).getD i []).map some)
  | [], h, arr, c0, written, hv, hc0, hn, ha, _, hr => by
    refine ⟨hv, rfl, by simpa using hn, by simpa using ha, ?_⟩
    intro i hi
    simp only [List.map_nil, List.append_nil]
    exact hr i (by simpa using hi)
  | w :: rest, h, arr, c0, written, hv, hc0, hn, ha, hws, hr => by
    have hwlen : w.2.length = arr.elt_size := hws w (by simp)
    have hp := pushWrite_spec w.1 h arr w.2 hv hwlen
    obtain ⟨hv1, hes1, hn1, ha1, hpre1, hslot1⟩ := hp
    have hcap1 : (pushWrite w.1 h arr w.2).2.nalloc = capAfter c0 (written.length + 1) := by
      rw [ha1]
      by_cases hfull : arr.nelts = arr.nalloc
      · have hKeq : capAfter c0 written.length = written.length := by
          rw [← ha, ← hfull]
          exact hn
        have h2 := (capAfter_step written.length c0 hc0).2 hKeq
        have hna : arr.nalloc = written.length := by rw [ha, hKeq]
        have hnz : arr.nalloc ≠ 0 := by
          intro hz
          rw [hna] at hz
          rw [hz, capAfter_of_le (Nat.zero_le c0)] at hKeq
          omega
        rw [if_pos hfull, if_neg hnz, h2, hna]
        omega
      · have hcnt2 : arr.nelts ≤ arr.nalloc := hv.2.2
        have hlt : written.length < capAfter c0 written.length := by
          rw [← ha, ← hn]
          omega
        rw [if_neg hfull, (capAfter_step written.length c0 hc0).1 hlt, ha]
    have hrec := pushWriteSeq_spec rest (pushWrite w.1 h arr w.2).1
      (pushWrite w.1 h arr w.2).2 c0 (written ++ [w.2]) hv1 hc0
      (by rw [hn1, hn, List.length_append, List.length_cons, List.length_nil])
      (by rw [hcap1, List.length_append, List.length_cons, List.length_nil])
      (by intro x hx; rw [hes1]; exact hws x (by simp [hx]))
      ?_
    · simp only [pushWriteSeq] at hrec ⊢
      obtain ⟨rv, res, rn, ra, rr⟩ := hrec
      refine ⟨rv, by rw [res, hes1], ?_, ?_, ?_⟩
      · rw [rn, List.length_append, List.length_cons, List.length_nil, List.length_cons]
        omega
      · rw [ra, List.length_append, List.length_cons, List.length_nil, List.length_cons]
        congr 1
        omega
      · intro i hi
        have hi' : i < (written ++ [w.2]).length + rest.length := by
          rw [List.length_append, List.length_cons, List.length_nil]
          simp only [List.length_cons] at hi
          omega
        rw [rr i hi']
        congr 2
        rw [List.append_assoc, List.map_cons]
        rfl
    · intro i hi
      rw [List.length_append, List.length_cons, List.length_nil] at hi
      by_cases hiw : i < written.length
      · rw [hpre1 i (by omega), hr i hiw, List.getD_append _ _ _ _ hiw]
      · have hieq : i = written.length := by omega
        subst hieq
        have hslot2 : readElt (pushWrite w.1 h arr w.2).1 (pushWrite w.1 h arr w.2).2
            written.length = List.map some w.2 := by
          rw [← hn]
          exact hslot1
        rw [hslot2, List.getD_append_right _ _ _ _ (le_refl _), Nat.sub_self]
        rfl

/-! ## Claims C7 and C9 -/

/-- C7: starting from a freshly made array, a sequence of `N` pushes (of
either variant) with no intervening pops leaves `count = N`; the capacity
only ever grows by doubling, i.e. the final capacity is `capAfter` of the
clamped initial capacity; and every previously written element reads back
byte-for-byte, so no write is lost across the capacity-doubling
reallocations. -/
theorem claim_C7 (h : ArenaHeap) (n0 es : Nat) (ws : List (Bool × List Nat))
    (hws : ∀ w ∈ ws, w.2.length = es) :
    (pushWriteSeq (xm_array_make h n0 es).1 (xm_array_make h n0 es).2 ws).2.nelts
      = ws.length ∧
    (pushWriteSeq (xm_array_make h n0 es).1 (xm_array_make h n0 es).2 ws).2.nalloc
      = capAfter (max n0 1) ws.length ∧
    (∀ i, i < ws.length →
      readElt (pushWriteSeq (xm_array_make h n0 es).1 (xm_array_make h n0 es).2 ws).1
          (pushWriteSeq (xm_array_make h n0 es).1 (xm_array_make h n0 es).2 ws).2 i
        = ((ws.map (fun w => w.2)).getD i []).map some) := by
  have hv : ValidArray (xm_array_make h n0 es).1 (xm_array_make h n0 es).2 := by
    refine ⟨by simp [xm_array_make, heapAlloc], ?_, by simp [xm_array_make, heapAlloc]⟩
    show ((h.bufs ++ [List.replicate (max n0 1 * es) (some 0)]).getD h.bufs.length []).length
      = max n0 1 * es
    rw [List.getD_append_right _ _ _ _ (le_refl _), Nat.sub_self]
    simp
  have hs := pushWriteSeq_spec ws (xm_array_make h n0 es).1 (xm_array_make h n0 es).2
    (max n0 1) [] hv (by omega) rfl
    (by show max n0 1 = capAfter (max n0 1) 0; rw [capAfter_of_le (Nat.zero_le _)])
    (fun w hw => hws w hw) (by intro i hi; simp at hi)
  obtain ⟨_, _, hn, ha, hr⟩ := hs
  refine ⟨by simpa using hn, by simpa using ha, ?_⟩
  intro i hi
  rw [hr i (by simpa using hi)]
  simp

theorem claim_C7_witness :
    (∀ w ∈ ([(true, [7]), (false, [8]), (true, [9])] : List (Bool × List Nat)),
      w.2.length = 1) ∧
    ((pushWriteSeq (xm_array_make ⟨[]⟩ 0 1).1 (xm_array_make ⟨[]⟩ 0 1).2
        [(true, [7]), (false, [8]), (true, [9])]).2.nelts
      = [(true, [7]), (false, [8]), (true, [9])].length ∧
    (pushWriteSeq (xm_array_make ⟨[]⟩ 0 1).1 (xm_array_make ⟨[]⟩ 0 1).2
        [(true, [7]), (false, [8]), (true, [9])]).2.nalloc
      = capAfter (max 0 1) [(true, [7]), (false, [8]), (true, [9])].length ∧
    (∀ i, i < [(true, [7]), (false, [8]), (true, [9])].length →
      readElt (pushWriteSeq (xm_array_make ⟨[]⟩ 0 1).1 (xm_array_make ⟨[]⟩ 0 1).2
            [(true, [7]), (false, [8]), (true, [9])]).1
          (pushWriteSeq (xm_array_make ⟨[]⟩ 0 1).1 (xm_array_make ⟨[]⟩ 0 1).2
            [(true, [7]), (false, [8]), (true, [9])]).2 i
        = (([(true, [7]), (false, [8]), (true, [9])].map
            (fun w => w.2)).getD i []).map some)) :=
  ⟨by decide, claim_C7 ⟨[]⟩ 0 1 [(true, [7]), (false, [8]), (true, [9])] (by decide)⟩

/-- C9: for a valid array and `i < count`, a shallow header copy followed
immediately by one push-and-write on the copy leaves the original array's
element `i` byte-for-byte unchanged: the copy's capacity is clamped to its
count, so the push reallocates into a fresh buffer instead of writing into
the shared one. -/
theorem claim_C9 (clear : Bool) (h : ArenaHeap) (arr : xm_array_header_t)
    (bytes : List Nat) (hv : ValidArray h arr) (i : Nat) (hi : i < arr.nelts) :
    readElt (pushWrite clear h (xm_array_copy_hdr arr) bytes).1 arr i
      = readElt h arr i := by
  have hfull : (xm_array_copy_hdr arr).nelts = (xm_array_copy_hdr arr).nalloc := rfl
  rw [pushWrite_grow_eq clear h (xm_array_copy_hdr arr) bytes hfull]
  simp only [heapWrite]
  unfold readElt
  have hne : h.bufs.length ≠ arr.elts := by
    have h1 := hv.1
    omega
  rw [getD_set_ne _ _ _ _ _ hne, List.getD_append _ _ _ _ hv.1]

theorem claim_C9_witness :
    ValidArray ⟨[[some 1, some 2]]⟩ ⟨1, 2, 2, 0⟩ ∧
    0 < (⟨1, 2, 2, 0⟩ : xm_array_header_t).nelts ∧
    readElt (pushWrite true ⟨[[some 1, some 2]]⟩
        (xm_array_copy_hdr ⟨1, 2, 2, 0⟩) [9]).1 (⟨1, 2, 2, 0⟩ : xm_array_header_t) 0
      = readElt ⟨[[some 1, some 2]]⟩ (⟨1, 2, 2, 0⟩ : xm_array_header_t) 0 :=
  ⟨by decide, by decide, claim_C9 true ⟨[[some 1, some 2]]⟩ ⟨1, 2, 2, 0⟩ [9]
    (by decide) 0 (by decide)⟩

/-! ## Positional list utilities -/

theorem getD_mem {α : Type _} (L : List α) (d : α) (i : Nat) (hi : i < L.length) :
    L.getD i d ∈ L := by
  rw [List.getD_eq_getElem _ _ hi]
  exact List.getElem_mem hi

theorem take_filter_eq_self {α : Type _} (d : α) (p : α → Bool) : ∀ (L : List α) (n : Nat),
    (∀ m, m < n → m < L.length → p (L.getD m d) = true) →
    (L.take n).filter p = L.take n
  | [], n, _ => by simp
  | a :: L, 0, _ => by simp
  | a :: L, n + 1, h => by
    rw [List.take_succ_cons]
    have ha : p a = true := h 0 (by omega) (by simp)
    rw [List.filter_cons_of_pos ha]
    rw [take_filter_eq_self d p L n
      (fun m hm hlen => h (m + 1) (by omega) (by simp; omega))]

theorem drop_filter_eq_self {α : Type _} (d : α) (p : α → Bool) : ∀ (L : List α) (n : Nat),
    (∀ m, n ≤ m → m < L.length → p (L.getD m d) = true) →
    (L.drop n).filter p = L.drop n
  | L, 0, h => by
    rw [List.drop_zero]
    exact List.filter_eq_self.mpr (fun a ha => by
      obtain ⟨i, hi, hieq⟩ := List.mem_iff_getElem.mp ha
      have hp := h i (Nat.zero_le _) hi
      rw [List.getD_eq_getElem _ _ hi, hieq] at hp
      exact hp)
  | [], n + 1, _ => by simp
  | a :: L, n + 1, h => by
    rw [List.drop_succ_cons]
    exact drop_filter_eq_self d p L n
      (fun m hm hlen => h (m + 1) (by omega) (by simp; omega))

/-! ## `firstIdx` lemmas -/

theorem firstIdx_none_iff {α : Type _} (p : α → Bool) : ∀ (L : List α),
    firstIdx p L = none ↔ ∀ a ∈ L, p a = false
  | [] => by simp [firstIdx]
  | a :: L => by
    by_cases hp : p a
    · simp [firstIdx, hp]
    · have hpf : p a = false := by simpa using hp
      simp [firstIdx, hpf, firstIdx_none_iff p L]

theorem firstIdx_some : ∀ {α : Type _} (p : α → Bool) (L : List α) (d : α) (j : Nat),
    firstIdx p L = some j →
    j < L.length ∧ p (L.getD j d) = true ∧ ∀ m, m < j → p (L.getD m d) = false := by
  intro α p L
  induction L with
  | nil => intro d j hj; simp [firstIdx] at hj
  | cons a L ih =>
    intro d j hj
    simp only [firstIdx] at hj
    by_cases hp : p a
    · rw [if_pos hp] at hj
      cases hj
      exact ⟨by simp, hp, fun m hm => by omega⟩
    · rw [if_neg hp] at hj
      obtain ⟨j', hmap, hjeq⟩ := Option.map_eq_some'.mp hj
      subst hjeq
      obtain ⟨h1, h2, h3⟩ := ih d j' hmap
      refine ⟨by simp; omega, h2, ?_⟩
      intro m hm
      cases m with
      | zero => simpa using hp
      | succ m' => exact h3 m' (by omega)

theorem find?_eq_firstIdx {α : Type _} (p : α → Bool) (d : α) : ∀ (L : List α),
    L.find? p = (firstIdx p L).map (fun j => L.getD j d)
  | [] => by simp [firstIdx]
  | a :: L => by
    simp only [List.find?, firstIdx]
    by_cases hp : p a
    · simp [hp]
    · have hpf : p a = false := by simpa using hp
      simp only [hpf, Bool.false_eq_true, if_false, cond_false]
      rw [find?_eq_firstIdx p d L]
      rcases firstIdx p L with _ | j <;> simp

/-! ## `scanFindGo` characterization -/

theorem scanFindGo_none_of (elts : List xm_table_entry_t) (chk : Nat) (key : List Nat) :
    ∀ (n i : Nat), (∀ m, i ≤ m → m < i + n → entryMatches chk key (elts.getD m default) = false) →
    scanFindGo elts chk key n i = none
  | 0, i, _ => rfl
  | n + 1, i, h => by
    rw [scanFindGo]
    have h0 : entryMatches chk key (elts.getD i default) = false := h i (le_refl _) (by omega)
    rw [h0]
    simp only [Bool.false_eq_true, if_false]
    exact scanFindGo_none_of elts chk key n (i + 1) (fun m hm hm2 => h m (by omega) (by omega))

theorem scanFindGo_some_of (elts : List xm_table_entry_t) (chk : Nat) (key : List Nat) :
    ∀ (n i j : Nat), i ≤ j → j < i + n →
    entryMatches chk key (elts.getD j default) = true →
    (∀ m, i ≤ m → m < j → entryMatches chk key (elts.getD m default) = false) →
    scanFindGo elts chk key n i = some j
  | 0, i, j, hij, hjn, _, _ => by omega
  | n + 1, i, j, hij, hjn, hj, hpre => by
    rw [scanFindGo]
    by_cases hi : i = j
    · subst hi
      rw [hj]
      simp
    · have h0 : entryMatches chk key (elts.getD i default) = false :=
        hpre i (le_refl _) (by omega)
      rw [h0]
      simp only [Bool.false_eq_true, if_false]
      exact scanFindGo_some_of elts chk key n (i + 1) j (by omega) (by omega) hj
        (fun m hm hm2 => hpre m (by omega) hm2)

/-! ## WF bridges: scans see exactly the case-insensitive matches -/

theorem entryMatches_eq_of_mem {t : xm_table_t} {k : List Nat} (hwf : WF t)
    (hk : KeyValid k) : ∀ e ∈ t.elts,
    entryMatches (computeChecksum k) k e = strcaseEq e.key k := by
  intro e he
  obtain ⟨hek, hechk⟩ := hwf.1 e he
  unfold entryMatches
  by_cases hmatch : strcaseEq e.key k = true
  · rw [hmatch, hechk, computeChecksum_congr hek hk hmatch]
    simp
  · have hf : strcaseEq e.key k = false := by simpa using hmatch
    rw [hf, Bool.and_false]

/-- Every case-insensitive match of `k` lies in `k`'s bucket range. -/
theorem match_in_range {t : xm_table_t} {k : List Nat} (hwf : WF t) (hk : KeyValid k) :
    ∀ i, i < t.elts.length → strcaseEq (t.elts.getD i default).key k = true →
    Nat.testBit t.index_init (TABLE_HASH k) = true ∧
    t.index_first (TABLE_HASH k) ≤ i ∧ i ≤ t.index_last (TABLE_HASH k) := by
  intro i hi hm
  have hkey := (hwf.1 _ (getD_mem t.elts default i hi)).1
  have hhash : TABLE_HASH (t.elts.getD i default).key = TABLE_HASH k :=
    TABLE_HASH_congr hkey hk hm
  have := hwf.2.1 i hi
  rw [hhash] at this
  exact this

theorem no_match_of_bit_clear {t : xm_table_t} {k : List Nat} (hwf : WF t)
    (hk : KeyValid k) (hbit : Nat.testBit t.index_init (TABLE_HASH k) = false) :
    ∀ e ∈ t.elts, strcaseEq e.key k = false := by
  intro e he
  by_contra hne
  have hm : strcaseEq e.key k = true := by simpa using hne
  obtain ⟨i, hi, hieq⟩ := List.mem_iff_getElem.mp he
  have := match_in_range hwf hk i hi (by rw [List.getD_eq_getElem _ _ hi, hieq]; exact hm)
  rw [this.1] at hbit
  simp at hbit

/-- With the bucket bit set, the bucket-range scan finds exactly the first
case-insensitive match of the whole entry list. -/
theorem scanFind_eq_firstIdx {t : xm_table_t} {k : List Nat} (hwf : WF t)
    (hk : KeyValid k) (hbit : Nat.testBit t.index_init (TABLE_HASH k) = true) :
    scanFind t.elts (computeChecksum k) k (t.index_first (TABLE_HASH k))
        (t.index_last (TABLE_HASH k))
      = firstIdx (fun e => strcaseEq e.key k) t.elts := by
  have hrange := hwf.2.2 (TABLE_HASH k) (by
    have : TABLE_HASH k ≤ 31 := by
      unfold TABLE_HASH
      rw [land31_eq_mod]
      omega
    omega) hbit
  unfold scanFind
  rcases hfi : firstIdx (fun e => strcaseEq e.key k) t.elts with _ | j
  all_goals rw [hfi]
  · apply scanFindGo_none_of
    intro m hm hm2
    have hmlen : m < t.elts.length := by omega
    rw [entryMatches_eq_of_mem hwf hk _ (getD_mem t.elts default m hmlen)]
    exact (firstIdx_none_iff _ t.elts).mp hfi _ (getD_mem t.elts default m hmlen)
  · obtain ⟨hjlen, hjm, hjpre⟩ := firstIdx_some _ t.elts default j hfi
    obtain ⟨_, hjf, hjl⟩ := match_in_range hwf hk j hjlen hjm
    apply scanFindGo_some_of
    · exact hjf
    · omega
    · rw [entryMatches_eq_of_mem hwf hk _ (getD_mem t.elts default j hjlen)]
      exact hjm
    · intro m hm hm2
      have hmlen : m < t.elts.length := by omega
      rw [entryMatches_eq_of_mem hwf hk _ (getD_mem t.elts default m hmlen)]
      exact hjpre m hm2

/-- `xm_table_get` returns the value of the first case-insensitive match. -/
theorem xm_table_get_eq_find {t : xm_table_t} {k : List Nat} (hwf : WF t)
    (hk : KeyValid k) :
    xm_table_get t k
      = (t.elts.find? (fun e => strcaseEq e.key k)).map (fun e => e.val) := by
  unfold xm_table_get
  by_cases hbit : Nat.testBit t.index_init (TABLE_HASH k) = true
  · rw [if_neg (by rw [hbit]; simp)]
    rw [scanFind_eq_firstIdx hwf hk hbit]
    rw [find?_eq_firstIdx _ default]
    rcases hfi2 : firstIdx (fun e => strcaseEq e.key k) t.elts with _ | j <;>
      rw [hfi2] <;> simp
  · have hbf : Nat.testBit t.index_init (TABLE_HASH k) = false := by
      simpa using hbit
    rw [if_pos hbf]
    have : t.elts.find? (fun e => strcaseEq e.key k) = none :=
      List.find?_eq_none.mpr (fun e he => by
        rw [no_match_of_bit_clear hwf hk hbf e he]
        simp)
    rw [this]
    rfl

/-! ## `table_reindex` rebuilds a well-formed index -/

theorem TABLE_HASH_le (key : List Nat) : TABLE_HASH key ≤ 31 := by
  unfold TABLE_HASH
  rw [land31_eq_mod]
  omega

theorem updIdx_self (f : Nat → Nat) (hh v : Nat) : updIdx f hh v hh = v := by
  unfold updIdx
  rw [if_pos rfl]

theorem updIdx_ne (f : Nat → Nat) (hh v h2 : Nat) (hne : h2 ≠ hh) :
    updIdx f hh v h2 = f h2 := by
  unfold updIdx
  rw [if_neg hne]

theorem testBit_or_pow_self (x hh : Nat) : Nat.testBit (x ||| (1 <<< hh)) hh = true := by
  rw [Nat.testBit_lor, Nat.shiftLeft_eq, one_mul, Nat.testBit_two_pow]
  simp

theorem testBit_or_pow_ne (x hh h2 : Nat) (hne : h2 ≠ hh) :
    Nat.testBit (x ||| (1 <<< hh)) h2 = Nat.testBit x h2 := by
  rw [Nat.testBit_lor, Nat.shiftLeft_eq, one_mul, Nat.testBit_two_pow]
  have hd : decide (hh = h2) = false := decide_eq_false (fun h => hne h.symm)
  rw [hd, Bool.or_false]

theorem drop_cons_facts {α : Type _} [Inhabited α] {L es : List α} {e : α} {i0 : Nat}
    (h : L.drop i0 = e :: es) :
    i0 < L.length ∧ e = L.getD i0 default ∧ L.drop (i0 + 1) = es := by
  have hlen : i0 < L.length := by
    by_contra hc
    rw [List.drop_eq_nil_of_le (by omega)] at h
    exact List.noConfusion h
  have h2 := List.drop_eq_getElem_cons hlen
  rw [h] at h2
  obtain ⟨he, hrest⟩ := List.cons.injEq _ _ _ _ ▸ h2
  exact ⟨hlen, by rw [he, List.getD_eq_getElem _ _ hlen], hrest.symm⟩

theorem reindexAux_spec (L : List xm_table_entry_t) :
    ∀ (es : List xm_table_entry_t) (i0 : Nat) (fidx lidx : Nat → Nat) (ib : Nat),
    L.drop i0 = es → i0 ≤ L.length →
    (∀ p, p < i0 →
      Nat.testBit ib (TABLE_HASH (L.getD p default).key) = true ∧
      fidx (TABLE_HASH (L.getD p default).key) ≤ p ∧
      p ≤ lidx (TABLE_HASH (L.getD p default).key)) →
    (∀ hh, Nat.testBit ib hh = true → fidx hh ≤ lidx hh ∧ lidx hh < i0) →
    (∀ p, p < L.length →
      Nat.testBit (reindexAux es i0 fidx lidx ib).2.2
          (TABLE_HASH (L.getD p default).key) = true ∧
      (reindexAux es i0 fidx lidx ib).1 (TABLE_HASH (L.getD p default).key) ≤ p ∧
      p ≤ (reindexAux es i0 fidx lidx ib).2.1 (TABLE_HASH (L.getD p default).key)) ∧
    (∀ hh, Nat.testBit (reindexAux es i0 fidx lidx ib).2.2 hh = true →
      (reindexAux es i0 fidx lidx ib).1 hh ≤ (reindexAux es i0 fidx lidx ib).2.1 hh ∧
      (reindexAux es i0 fidx lidx ib).2.1 hh < L.length)
  | [], i0, fidx, lidx, ib, hdrop, hle, hA, hB => by
    have hi0 : i0 = L.length := by
      have := congrArg List.length hdrop
      rw [List.length_drop] at this
      simp at this
      omega
    rw [reindexAux]
    subst hi0
    exact ⟨fun p hp => hA p hp, fun hh hb => ⟨(hB hh hb).1, (hB hh hb).2⟩⟩
  | e :: rest, i0, fidx, lidx, ib, hdrop, hle, hA, hB => by
    obtain ⟨hi0, he, hrest⟩ := drop_cons_facts hdrop
    rw [reindexAux]
    by_cases hbit : Nat.testBit ib (TABLE_HASH e.key) = true
    · rw [if_pos hbit]
      apply reindexAux_spec L rest (i0 + 1) fidx (updIdx lidx (TABLE_HASH e.key) i0) ib
        hrest (by omega)
      · intro p hp
        by_cases hpi : p < i0
        · obtain ⟨hA1, hA2, hA3⟩ := hA p hpi
          refine ⟨hA1, hA2, ?_⟩
          by_cases hph : TABLE_HASH (L.getD p default).key = TABLE_HASH e.key
          · rw [hph, updIdx_self]
            omega
          · rw [updIdx_ne _ _ _ _ hph]
            exact hA3
        · have hpe : p = i0 := by omega
          subst hpe
          rw [← he, updIdx_self]
          obtain ⟨hB1, hB2⟩ := hB _ hbit
          exact ⟨hbit, by omega, le_refl _⟩
      · intro hh hb
        by_cases hhe : hh = TABLE_HASH e.key
        · subst hhe
          rw [updIdx_self]
          obtain ⟨hB1, hB2⟩ := hB _ hbit
          exact ⟨by omega, by omega⟩
        · rw [updIdx_ne _ _ _ _ hhe]
          obtain ⟨hB1, hB2⟩ := hB hh hb
          exact ⟨hB1, by omega⟩
    · rw [if_neg hbit]
      apply reindexAux_spec L rest (i0 + 1) (updIdx fidx (TABLE_HASH e.key) i0)
        (updIdx lidx (TABLE_HASH e.key) i0) (ib ||| (1 <<< TABLE_HASH e.key))
        hrest (by omega)
      · intro p hp
        by_cases hpi : p < i0
        · obtain ⟨hA1, hA2, hA3⟩ := hA p hpi
          have hne : TABLE_HASH (L.getD p default).key ≠ TABLE_HASH e.key := by
            intro hcontra
            rw [hcontra] at hA1
            rw [hA1] at hbit
            exact hbit rfl
          rw [testBit_or_pow_ne _ _ _ hne, updIdx_ne _ _ _ _ hne, updIdx_ne _ _ _ _ hne]
          exact ⟨hA1, hA2, hA3⟩
        · have hpe : p = i0 := by omega
          subst hpe
          rw [← he, updIdx_self, updIdx_self]
          exact ⟨testBit_or_pow_self _ _, le_refl _, le_refl _⟩
      · intro hh hb
        by_cases hhe : hh = TABLE_HASH e.key
        · subst hhe
          rw [updIdx_self, updIdx_self]
          exact ⟨le_refl _, by omega⟩
        · rw [updIdx_ne _ _ _ _ hhe, updIdx_ne _ _ _ _ hhe]
          rw [testBit_or_pow_ne _ _ _ hhe] at hb
          obtain ⟨hB1, hB2⟩ := hB hh hb
          exact ⟨hB1, by omega⟩

theorem table_reindex_elts (t : xm_table_t) : (table_reindex t).elts = t.elts := rfl

theorem WF_table_reindex (t : xm_table_t)
    (h1 : ∀ e ∈ t.elts, KeyValid e.key ∧ e.key_checksum = computeChecksum e.key) :
    WF (table_reindex t) := by
  have hspec := reindexAux_spec t.elts t.elts 0 t.index_first t.index_last 0
    (List.drop_zero _) (Nat.zero_le _)
    (fun p hp => by omega)
    (fun hh hb => by rw [Nat.zero_testBit] at hb; exact absurd hb (by simp))
  refine ⟨h1, ?_, ?_⟩
  · intro i hi
    exact hspec.1 i hi
  · intro hh _ hb
    exact hspec.2 hh hb

/-! ## Entry-list effect of `add`, `set`, `unset` -/

theorem xm_table_add_elts (t : xm_table_t) (k v : List Nat) :
    (xm_table_add t k v).elts = t.elts ++ [⟨k, v, computeChecksum k⟩] := by
  simp only [xm_table_add]
  split <;> rfl

theorem drop_decomp (L : List xm_table_entry_t) (j l : Nat) (hj : j ≤ l)
    (hl : l < L.length) :
    L.drop j = L.getD j default :: ((L.drop (j + 1)).take (l - j) ++ L.drop (l + 1)) := by
  rw [List.drop_eq_getElem_cons (by omega : j < L.length)]
  congr 1
  · exact (List.getD_eq_getElem L default (by omega)).symm
  · conv_lhs => rw [← List.take_append_drop (l - j) (L.drop (j + 1))]
    congr 1
    rw [List.drop_drop]
    congr 1
    omega

/-- Under `WF`, the entry-list effect of `xm_table_set` is `listSetSpec`. -/
theorem xm_table_set_elts {t : xm_table_t} {k v : List Nat} (hwf : WF t)
    (hk : KeyValid k) :
    (xm_table_set t k v).elts = listSetSpec t.elts k v := by
  simp only [xm_table_set, listSetSpec]
  by_cases hbit : Nat.testBit t.index_init (TABLE_HASH k) = true
  · rw [if_neg (by rw [hbit]; simp), scanFind_eq_firstIdx hwf hk hbit]
    rcases hfi : firstIdx (fun e => strcaseEq e.key k) t.elts with _ | j
    · simp only [hfi]
    · simp only [hfi]
      obtain ⟨hjlen, hjm, hjpre⟩ := firstIdx_some _ t.elts default j hfi
      obtain ⟨_, hjf, hjl⟩ := match_in_range hwf hk j hjlen hjm
      obtain ⟨hfl, hll⟩ := hwf.2.2 (TABLE_HASH k) (by have := TABLE_HASH_le k; omega) hbit
      have hmidc : ((t.elts.drop (j + 1)).take (t.index_last (TABLE_HASH k) - j)).filter
            (fun e2 => !entryMatches (computeChecksum k) k e2)
          = ((t.elts.drop (j + 1)).take (t.index_last (TABLE_HASH k) - j)).filter
            (fun e => !strcaseEq e.key k) := by
        apply List.filter_congr
        intro e he
        have hmem : e ∈ t.elts := List.mem_of_mem_drop (List.mem_of_mem_take he)
        rw [entryMatches_eq_of_mem hwf hk e hmem]
      have hsplit : (t.elts.drop (j + 1)).filter (fun e => !strcaseEq e.key k)
          = ((t.elts.drop (j + 1)).take (t.index_last (TABLE_HASH k) - j)).filter
              (fun e => !strcaseEq e.key k)
            ++ t.elts.drop (t.index_last (TABLE_HASH k) + 1) := by
        conv_lhs => rw [← List.take_append_drop (t.index_last (TABLE_HASH k) - j)
          (t.elts.drop (j + 1))]
        rw [List.filter_append]
        congr 1
        rw [List.drop_drop]
        have harith : (j + 1) + (t.index_last (TABLE_HASH k) - j)
            = t.index_last (TABLE_HASH k) + 1 := by omega
        rw [harith]
        apply drop_filter_eq_self default
        intro m hm hmlen
        by_cases hP : strcaseEq (t.elts.getD m default).key k = true
        · obtain ⟨_, _, hmr⟩ := match_in_range hwf hk m hmlen hP
          omega
        · simp only [Bool.not_eq_true] at hP
          rw [hP]
          rfl
      have helts : t.elts.take j ++ [{ t.elts.getD j default with val := v }]
            ++ ((t.elts.drop (j + 1)).take (t.index_last (TABLE_HASH k) - j)).filter
              (fun e2 => !entryMatches (computeChecksum k) k e2)
            ++ t.elts.drop (t.index_last (TABLE_HASH k) + 1)
          = t.elts.take j ++ [{ t.elts.getD j default with val := v }]
            ++ (t.elts.drop (j + 1)).filter (fun e => !strcaseEq e.key k) := by
        rw [hsplit, hmidc]
        simp [List.append_assoc]
      split <;> exact helts
  · have hbf : Nat.testBit t.index_init (TABLE_HASH k) = false := by simpa using hbit
    rw [if_pos hbf]
    have hnone : firstIdx (fun e => strcaseEq e.key k) t.elts = none :=
      (firstIdx_none_iff _ t.elts).mpr (no_match_of_bit_clear hwf hk hbf)
    simp only [hnone]

theorem xm_table_unset_noop {t : xm_table_t} {k : List Nat}
    (hbit : Nat.testBit t.index_init (TABLE_HASH k) = false) :
    xm_table_unset t k = t := by
  simp only [xm_table_unset]
  rw [if_pos hbit]

/-- Under `WF`, `xm_table_unset` removes exactly the case-insensitive matches
and keeps everything else in order. -/
theorem xm_table_unset_elts {t : xm_table_t} {k : List Nat} (hwf : WF t)
    (hk : KeyValid k) :
    (xm_table_unset t k).elts = t.elts.filter (fun e => !strcaseEq e.key k) := by
  simp only [xm_table_unset]
  by_cases hbit : Nat.testBit t.index_init (TABLE_HASH k) = true
  · rw [if_neg (by rw [hbit]; simp), scanFind_eq_firstIdx hwf hk hbit]
    rcases hfi : firstIdx (fun e => strcaseEq e.key k) t.elts with _ | j
    · simp only [hfi]
      exact (List.filter_eq_self.mpr (fun e he => by
        rw [(firstIdx_none_iff _ t.elts).mp hfi e he]
        rfl)).symm
    · simp only [hfi]
      obtain ⟨hjlen, hjm, hjpre⟩ := firstIdx_some _ t.elts default j hfi
      obtain ⟨_, hjf, hjl⟩ := match_in_range hwf hk j hjlen hjm
      obtain ⟨hfl, hll⟩ := hwf.2.2 (TABLE_HASH k) (by have := TABLE_HASH_le k; omega) hbit
      show t.elts.take j
            ++ ((t.elts.drop (j + 1)).take (t.index_last (TABLE_HASH k) - j)).filter
              (fun e2 => !entryMatches (computeChecksum k) k e2)
            ++ t.elts.drop (t.index_last (TABLE_HASH k) + 1)
          = t.elts.filter (fun e => !strcaseEq e.key k)
      have hmidc : ((t.elts.drop (j + 1)).take (t.index_last (TABLE_HASH k) - j)).filter
            (fun e2 => !entryMatches (computeChecksum k) k e2)
          = ((t.elts.drop (j + 1)).take (t.index_last (TABLE_HASH k) - j)).filter
            (fun e => !strcaseEq e.key k) := by
        apply List.filter_congr
        intro e he
        have hmem : e ∈ t.elts := List.mem_of_mem_drop (List.mem_of_mem_take he)
        rw [entryMatches_eq_of_mem hwf hk e hmem]
      conv_rhs => rw [← List.take_append_drop j t.elts]
      rw [List.filter_append]
      rw [take_filter_eq_self default _ t.elts j (fun m hm hmlen => by
        rw [hjpre m hm]
        rfl)]
      rw [drop_decomp t.elts j (t.index_last (TABLE_HASH k)) (by omega) hll]
      rw [List.filter_cons_of_neg (by rw [hjm]; simp)]
      rw [List.filter_append]
      rw [drop_filter_eq_self default _ t.elts (t.index_last (TABLE_HASH k) + 1)
        (fun m hm hmlen => by
          by_cases hP : strcaseEq (t.elts.getD m default).key k = true
          · obtain ⟨_, _, hmr⟩ := match_in_range hwf hk m hmlen hP
            omega
          · simp only [Bool.not_eq_true] at hP
            rw [hP]
            rfl)]
      rw [hmidc]
      simp [List.append_assoc]
  · have hbf : Nat.testBit t.index_init (TABLE_HASH k) = false := by simpa using hbit
    rw [if_pos hbf]
    exact (List.filter_eq_self.mpr (fun e he => by
      rw [no_match_of_bit_clear hwf hk hbf e he]
      rfl)).symm

/-! ## `WF` preservation -/

theorem WF_of_keys_eq {t t' : xm_table_t}
    (hlen : t'.elts.length = t.elts.length)
    (hkeys : ∀ i, i < t.elts.length →
      (t'.elts.getD i default).key = (t.elts.getD i default).key)
    (hii : t'.index_init = t.index_init)
    (hif : t'.index_first = t.index_first)
    (hil : t'.index_last = t.index_last)
    (h1 : ∀ e ∈ t'.elts, KeyValid e.key ∧ e.key_checksum = computeChecksum e.key)
    (hwf : WF t) : WF t' := by
  refine ⟨h1, ?_, ?_⟩
  · intro i hi
    rw [hlen] at hi
    rw [hkeys i hi, hii, hif, hil]
    exact hwf.2.1 i hi
  · intro hh hh32 hb
    rw [hii] at hb
    rw [hif, hil, hlen]
    exact hwf.2.2 hh hh32 hb

/-- Appending an entry to an uninitialized bucket, setting its bit and both
range ends — the fresh-bucket branch shared by `set` and `add` — preserves
well-formedness. -/
theorem WF_append_new {t : xm_table_t} {k v : List Nat} (hwf : WF t)
    (hk : KeyValid k)
    (hbit : Nat.testBit t.index_init (TABLE_HASH k) = false) :
    WF { elts := t.elts ++ [⟨k, v, computeChecksum k⟩],
         index_init := t.index_init ||| (1 <<< TABLE_HASH k),
         index_first := updIdx t.index_first (TABLE_HASH k) t.elts.length,
         index_last := updIdx t.index_last (TABLE_HASH k) t.elts.length } := by
  refine ⟨?_, ?_, ?_⟩
  · intro e he
    rcases List.mem_append.mp he with h | h
    · exact hwf.1 e h
    · rw [List.mem_singleton.mp h]
      exact ⟨hk, rfl⟩
  · intro i hi
    dsimp only at hi ⊢
    simp only [List.length_append, List.length_singleton] at hi
    by_cases hil : i < t.elts.length
    · rw [List.getD_append _ _ _ _ hil]
      obtain ⟨hb, hf, hl⟩ := hwf.2.1 i hil
      have hne : TABLE_HASH (t.elts.getD i default).key ≠ TABLE_HASH k := by
        intro heq
        rw [heq] at hb
        rw [hb] at hbit
        exact absurd hbit (by simp)
      refine ⟨?_, ?_, ?_⟩
      · rw [Nat.testBit_or, hb]
        rfl
      · rw [updIdx_ne _ _ _ _ hne]
        exact hf
      · rw [updIdx_ne _ _ _ _ hne]
        exact hl
    · have hieq : i = t.elts.length := by omega
      subst hieq
      rw [List.getD_append_right _ _ _ _ (le_refl _), Nat.sub_self]
      simp only [List.getD_cons_zero]
      rw [updIdx_self, updIdx_self]
      exact ⟨testBit_or_pow_self _ _, le_refl _, le_refl _⟩
  · intro hh hh32 hb
    dsimp only at hb ⊢
    rw [List.length_append, List.length_singleton]
    by_cases hhe : hh = TABLE_HASH k
    · subst hhe
      rw [updIdx_self, updIdx_self]
      omega
    · rw [updIdx_ne _ _ _ _ hhe, updIdx_ne _ _ _ _ hhe]
      have hb' : Nat.testBit t.index_init hh = true := by
        rw [show Nat.testBit (t.index_init ||| (1 <<< TABLE_HASH k)) hh
              = Nat.testBit t.index_init hh from testBit_or_pow_ne _ _ _ hhe] at hb
        exact hb
      obtain ⟨h1, h2⟩ := hwf.2.2 hh hh32 hb'
      omega

/-- Appending an entry to an already-initialized bucket, advancing only
`index_last` — the duplicate-append branch shared by `set` and `add` —
preserves well-formedness. -/
theorem WF_append_old {t : xm_table_t} {k v : List Nat} (hwf : WF t)
    (hk : KeyValid k)
    (hbit : Nat.testBit t.index_init (TABLE_HASH k) = true) :
    WF { t with elts := t.elts ++ [⟨k, v, computeChecksum k⟩],
                index_last := updIdx t.index_last (TABLE_HASH k) t.elts.length } := by
  obtain ⟨hfl, hll⟩ := hwf.2.2 (TABLE_HASH k) (by have := TABLE_HASH_le k; omega) hbit
  refine ⟨?_, ?_, ?_⟩
  · intro e he
    rcases List.mem_append.mp he with h | h
    · exact hwf.1 e h
    · rw [List.mem_singleton.mp h]
      exact ⟨hk, rfl⟩
  · intro i hi
    dsimp only at hi ⊢
    simp only [List.length_append, List.length_singleton] at hi
    by_cases hil : i < t.elts.length
    · rw [List.getD_append _ _ _ _ hil]
      obtain ⟨hb, hf, hl⟩ := hwf.2.1 i hil
      refine ⟨hb, hf, ?_⟩
      by_cases hhe : TABLE_HASH (t.elts.getD i default).key = TABLE_HASH k
      · rw [hhe, updIdx_self]
        omega
      · rw [updIdx_ne _ _ _ _ hhe]
        exact hl
    · have hieq : i = t.elts.length := by omega
      subst hieq
      rw [List.getD_append_right _ _ _ _ (le_refl _), Nat.sub_self]
      simp only [List.getD_cons_zero]
      rw [updIdx_self]
      exact ⟨hbit, by omega, le_refl _⟩
  · intro hh hh32 hb
    dsimp only at hb ⊢
    rw [List.length_append, List.length_singleton]
    by_cases hhe : hh = TABLE_HASH k
    · subst hhe
      rw [updIdx_self]
      omega
    · rw [updIdx_ne _ _ _ _ hhe]
      obtain ⟨h1, h2⟩ := hwf.2.2 hh hh32 hb
      omega

/-- `xm_table_add` preserves well-formedness. -/
theorem WF_xm_table_add {t : xm_table_t} {k v : List Nat} (hwf : WF t)
    (hk : KeyValid k) : WF (xm_table_add t k v) := by
  simp only [xm_table_add]
  by_cases hbit : Nat.testBit t.index_init (TABLE_HASH k) = false
  · rw [if_pos hbit]
    exact WF_append_new hwf hk hbit
  · rw [if_neg hbit]
    exact WF_append_old hwf hk (by simpa using hbit)

/-- `xm_table_set` preserves well-formedness. -/
theorem WF_xm_table_set {t : xm_table_t} {k v : List Nat} (hwf : WF t)
    (hk : KeyValid k) : WF (xm_table_set t k v) := by
  simp only [xm_table_set]
  by_cases hbit : Nat.testBit t.index_init (TABLE_HASH k) = true
  · rw [if_neg (by rw [hbit]; simp), scanFind_eq_firstIdx hwf hk hbit]
    rcases hfi : firstIdx (fun e => strcaseEq e.key k) t.elts with _ | j
    · simp only [hfi]
      exact WF_append_old hwf hk hbit
    · simp only [hfi]
      obtain ⟨hjlen, hjm, hjpre⟩ := firstIdx_some _ t.elts default j hfi
      obtain ⟨_, hjf, hjl⟩ := match_in_range hwf hk j hjlen hjm
      obtain ⟨hfl, hll⟩ := hwf.2.2 (TABLE_HASH k) (by have := TABLE_HASH_le k; omega) hbit
      have h1 : ∀ e ∈ (t.elts.take j ++ [{ t.elts.getD j default with val := v }]
          ++ ((t.elts.drop (j + 1)).take (t.index_last (TABLE_HASH k) - j)).filter
            (fun e2 => !entryMatches (computeChecksum k) k e2)
          ++ t.elts.drop (t.index_last (TABLE_HASH k) + 1)),
          KeyValid e.key ∧ e.key_checksum = computeChecksum e.key := by
        intro e he
        simp only [List.mem_append, List.mem_singleton] at he
        rcases he with ((h | h) | h) | h
        · exact hwf.1 e (List.mem_of_mem_take h)
        · obtain ⟨ha, hb⟩ := hwf.1 _ (getD_mem t.elts default j hjlen)
          rw [h]
          exact ⟨ha, hb⟩
        · exact hwf.1 e (List.mem_of_mem_drop (List.mem_of_mem_take
            (List.mem_of_mem_filter h)))
        · exact hwf.1 e (List.mem_of_mem_drop h)
      split
      · exact WF_table_reindex _ h1
      · rename_i hrem
        have hrem0 : (((t.elts.drop (j + 1)).take (t.index_last (TABLE_HASH k) - j)).filter
            (fun e2 => entryMatches (computeChecksum k) k e2)).length = 0 := by
          omega
        have hfilP : ((t.elts.drop (j + 1)).take (t.index_last (TABLE_HASH k) - j)).filter
            (fun e2 => entryMatches (computeChecksum k) k e2) = [] :=
          List.length_eq_zero.mp hrem0
        have hfilnot : ((t.elts.drop (j + 1)).take (t.index_last (TABLE_HASH k) - j)).filter
              (fun e2 => !entryMatches (computeChecksum k) k e2)
            = (t.elts.drop (j + 1)).take (t.index_last (TABLE_HASH k) - j) := by
          apply List.filter_eq_self.mpr
          intro a ha
          have h2 := List.filter_eq_nil_iff.mp hfilP a ha
          simp only [Bool.not_eq_true] at h2
          simp [h2]
        have hdrop : t.elts.drop (j + 1)
            = (t.elts.drop (j + 1)).take (t.index_last (TABLE_HASH k) - j)
              ++ t.elts.drop (t.index_last (TABLE_HASH k) + 1) := by
          conv_lhs => rw [← List.take_append_drop (t.index_last (TABLE_HASH k) - j)
            (t.elts.drop (j + 1))]
          congr 1
          rw [List.drop_drop]
          congr 1
          omega
        have helts : t.elts.take j ++ [{ t.elts.getD j default with val := v }]
              ++ ((t.elts.drop (j + 1)).take (t.index_last (TABLE_HASH k) - j)).filter
                (fun e2 => !entryMatches (computeChecksum k) k e2)
              ++ t.elts.drop (t.index_last (TABLE_HASH k) + 1)
            = t.elts.set j { t.elts.getD j default with val := v } := by
          rw [hfilnot, List.set_eq_take_append_cons_drop, if_pos hjlen]
          conv_rhs => rw [hdrop]
          simp [List.append_assoc]
        rw [helts]
        have hkeys : ∀ i, i < t.elts.length →
            (((t.elts.set j { t.elts.getD j default with val := v }).getD i default)).key
              = ((t.elts.getD i default)).key := by
          intro i hi
          by_cases hij : i = j
          · subst hij
            rw [getD_set_self _ _ _ _ hjlen]
          · rw [getD_set_ne _ _ _ _ _ (fun h => hij h.symm)]
        have h1s : ∀ e ∈ t.elts.set j { t.elts.getD j default with val := v },
            KeyValid e.key ∧ e.key_checksum = computeChecksum e.key := by
          intro e he
          rcases List.mem_or_eq_of_mem_set he with h | h
          · exact hwf.1 e h
          · obtain ⟨ha, hb⟩ := hwf.1 _ (getD_mem t.elts default j hjlen)
            rw [h]
            exact ⟨ha, hb⟩
        exact WF_of_keys_eq (List.length_set _ _ _) hkeys rfl rfl rfl h1s hwf
  · have hbf : Nat.testBit t.index_init (TABLE_HASH k) = false := by simpa using hbit
    rw [if_pos hbf]
    exact WF_append_new hwf hk hbf

/-! ## `set` round-trip (claim C3) -/

theorem take_all_neg {α : Type _} [Inhabited α] (p : α → Bool) (L : List α) (j : Nat)
    (h : ∀ m, m < j → p (L.getD m default) = false) :
    ∀ x ∈ L.take j, ¬ p x = true := by
  intro x hx
  obtain ⟨i, hm, hi⟩ := List.mem_take_iff_getElem.mp hx
  obtain ⟨hij, hil⟩ := lt_min_iff.mp hm
  rw [← hi, ← List.getD_eq_getElem L default hil, h i hij]
  simp

/-- `listSetSpec` always leaves the set value as the first case-insensitive
match of the key. -/
theorem find?_listSetSpec (L : List xm_table_entry_t) (k v : List Nat) :
    ((listSetSpec L k v).find? (fun e => strcaseEq e.key k)).map (fun e => e.val)
      = some v := by
  unfold listSetSpec
  rcases hfi : firstIdx (fun e => strcaseEq e.key k) L with _ | j
  · simp only [hfi]
    rw [List.find?_append]
    rw [List.find?_eq_none.mpr (fun x hx => by
      rw [(firstIdx_none_iff _ L).mp hfi x hx]
      simp)]
    simp [strcaseEq_refl]
  · simp only [hfi]
    obtain ⟨hjlen, hjm, hjpre⟩ := firstIdx_some _ L default j hfi
    rw [List.append_assoc, List.find?_append]
    rw [List.find?_eq_none.mpr (take_all_neg _ L j hjpre)]
    rw [List.singleton_append, List.find?_cons_of_pos _ (by exact hjm)]
    rfl

/-- `listSetSpec` always leaves exactly one case-insensitive match of the
key. -/
theorem countP_listSetSpec (L : List xm_table_entry_t) (k v : List Nat) :
    (listSetSpec L k v).countP (fun e => strcaseEq e.key k) = 1 := by
  unfold listSetSpec
  rcases hfi : firstIdx (fun e => strcaseEq e.key k) L with _ | j
  · simp only [hfi]
    rw [List.countP_append]
    rw [List.countP_eq_zero.mpr (fun x hx => by
      rw [(firstIdx_none_iff _ L).mp hfi x hx]
      simp)]
    have h1 : List.countP (fun e => strcaseEq e.key k)
        ([⟨k, v, computeChecksum k⟩] : List xm_table_entry_t) = 1 := by
      rw [List.countP_cons_of_pos _ _ (by exact strcaseEq_refl k)]
      rfl
    rw [h1]
  · simp only [hfi]
    obtain ⟨hjlen, hjm, hjpre⟩ := firstIdx_some _ L default j hfi
    rw [List.countP_append, List.countP_append]
    rw [List.countP_eq_zero.mpr (take_all_neg _ L j hjpre)]
    rw [List.countP_filter]
    have h0 : List.countP (fun a => strcaseEq a.key k && !strcaseEq a.key k)
        (L.drop (j + 1)) = 0 :=
      List.countP_eq_zero.mpr (fun a _ => by cases strcaseEq a.key k <;> simp)
    rw [h0]
    have h1 : List.countP (fun e => strcaseEq e.key k)
        ([{ L.getD j default with val := v }] : List xm_table_entry_t) = 1 := by
      rw [List.countP_cons_of_pos _ _ (by exact hjm)]
      rfl
    rw [h1]

/-- When the key already has exactly one match, `listSetSpec` keeps the entry
count unchanged. -/
theorem length_listSetSpec_of_unique (L : List xm_table_entry_t) (k v : List Nat)
    (hc : L.countP (fun e => strcaseEq e.key k) = 1) :
    (listSetSpec L k v).length = L.length := by
  unfold listSetSpec
  rcases hfi : firstIdx (fun e => strcaseEq e.key k) L with _ | j
  · simp only [hfi]
    exfalso
    have h0 : L.countP (fun e => strcaseEq e.key k) = 0 :=
      List.countP_eq_zero.mpr (fun x hx => by
        rw [(firstIdx_none_iff _ L).mp hfi x hx]
        simp)
    omega
  · simp only [hfi]
    obtain ⟨hjlen, hjm, hjpre⟩ := firstIdx_some _ L default j hfi
    have hdec : L = L.take j ++ L.getD j default :: L.drop (j + 1) := by
      conv_lhs => rw [← List.take_append_drop j L]
      congr 1
      rw [List.drop_eq_getElem_cons hjlen, List.getD_eq_getElem L default hjlen]
    rw [hdec] at hc
    rw [List.countP_append, List.countP_cons_of_pos _ _ (by exact hjm)] at hc
    rw [List.countP_eq_zero.mpr (take_all_neg _ L j hjpre)] at hc
    have hcnt : (L.drop (j + 1)).countP (fun e => strcaseEq e.key k) = 0 := by omega
    have hfil : (L.drop (j + 1)).filter (fun e => !strcaseEq e.key k) = L.drop (j + 1) :=
      List.filter_eq_self.mpr (fun a ha => by
        have h2 := List.countP_eq_zero.mp hcnt a ha
        simp only [Bool.not_eq_true] at h2
        simp [h2])
    rw [hfil]
    simp only [List.length_append, List.length_cons, List.length_take,
      List.length_drop, List.length_singleton, List.length_nil]
    omega

/-- C3: for every well-formed table and every valid key `K` and value `V`,
after `set(K, V)` a `get(K)` returns `V`; after `set(K, V)` twice in a row,
`get(K)` still returns `V`, exactly one entry whose key equals `K`
case-insensitively exists, and the second `set` did not grow the entry
count. -/
theorem claim_C3 (t : xm_table_t) (k v : List Nat) (hwf : WF t) (hk : KeyValid k) :
    xm_table_get (xm_table_set t k v) k = some v ∧
    xm_table_get (xm_table_set (xm_table_set t k v) k v) k = some v ∧
    (xm_table_set (xm_table_set t k v) k v).elts.countP
      (fun e => strcaseEq e.key k) = 1 ∧
    (xm_table_set (xm_table_set t k v) k v).elts.length
      = (xm_table_set t k v).elts.length := by
  have hwf1 : WF (xm_table_set t k v) := WF_xm_table_set hwf hk
  have hwf2 : WF (xm_table_set (xm_table_set t k v) k v) := WF_xm_table_set hwf1 hk
  have he1 : (xm_table_set t k v).elts = listSetSpec t.elts k v :=
    xm_table_set_elts hwf hk
  have he2 : (xm_table_set (xm_table_set t k v) k v).elts
      = listSetSpec (xm_table_set t k v).elts k v :=
    xm_table_set_elts hwf1 hk
  refine ⟨?_, ?_, ?_, ?_⟩
  · rw [xm_table_get_eq_find hwf1 hk, he1]
    exact find?_listSetSpec t.elts k v
  · rw [xm_table_get_eq_find hwf2 hk, he2]
    exact find?_listSetSpec _ k v
  · rw [he2]
    exact countP_listSetSpec _ k v
  · rw [he2]
    refine length_listSetSpec_of_unique _ k v ?_
    rw [he1]
    exact countP_listSetSpec t.elts k v

theorem claim_C3_witness :
    WF (xm_table_make 4) ∧ KeyValid [97, 66] ∧
    (xm_table_get (xm_table_set (xm_table_make 4) [97, 66] [120]) [97, 66]
        = some [120] ∧
      xm_table_get (xm_table_set (xm_table_set (xm_table_make 4) [97, 66] [120])
          [97, 66] [120]) [97, 66] = some [120] ∧
      (xm_table_set (xm_table_set (xm_table_make 4) [97, 66] [120])
          [97, 66] [120]).elts.countP (fun e => strcaseEq e.key [97, 66]) = 1 ∧
      (xm_table_set (xm_table_set (xm_table_make 4) [97, 66] [120])
          [97, 66] [120]).elts.length
        = (xm_table_set (xm_table_make 4) [97, 66] [120]).elts.length) :=
  ⟨by decide, by decide, claim_C3 (xm_table_make 4) [97, 66] [120] (by decide) (by decide)⟩

/-- C5: for every well-formed table and valid key `K`, `unset(K)` leaves the
entry list exactly as the in-order filter of the non-matching entries (so
every other-key entry keeps its value, relative order and count), zero
case-insensitive matches of `K` remain, and `unset` is a no-op when `K`'s
bucket was never populated. -/
theorem claim_C5 (t : xm_table_t) (k : List Nat) (hwf : WF t) (hk : KeyValid k) :
    (xm_table_unset t k).elts = t.elts.filter (fun e => !strcaseEq e.key k) ∧
    (xm_table_unset t k).elts.countP (fun e => strcaseEq e.key k) = 0 ∧
    (Nat.testBit t.index_init (TABLE_HASH k) = false → xm_table_unset t k = t) := by
  have h1 := xm_table_unset_elts hwf hk
  refine ⟨h1, ?_, fun hb => xm_table_unset_noop hb⟩
  rw [h1, List.countP_filter]
  exact List.countP_eq_zero.mpr (fun a _ => by cases strcaseEq a.key k <;> simp)

theorem claim_C5_witness :
    WF (xm_table_add (xm_table_add (xm_table_make 2) [97] [49]) [66] [50]) ∧
    KeyValid [97] ∧
    ((xm_table_unset (xm_table_add (xm_table_add (xm_table_make 2) [97] [49])
          [66] [50]) [97]).elts
        = (xm_table_add (xm_table_add (xm_table_make 2) [97] [49])
            [66] [50]).elts.filter (fun e => !strcaseEq e.key [97]) ∧
      (xm_table_unset (xm_table_add (xm_table_add (xm_table_make 2) [97] [49])
          [66] [50]) [97]).elts.countP (fun e => strcaseEq e.key [97]) = 0 ∧
      (Nat.testBit (xm_table_add (xm_table_add (xm_table_make 2) [97] [49])
            [66] [50]).index_init
          (TABLE_HASH [97]) = false →
        xm_table_unset (xm_table_add (xm_table_add (xm_table_make 2) [97] [49])
            [66] [50]) [97]
          = xm_table_add (xm_table_add (xm_table_make 2) [97] [49]) [66] [50])) :=
  ⟨by decide, by decide,
    claim_C5 (xm_table_add (xm_table_add (xm_table_make 2) [97] [49]) [66] [50])
      [97] (by decide) (by decide)⟩

/-! ## `vdo` refinement (claim C6) -/

theorem drop_all_neg {α : Type _} [Inhabited α] (p : α → Bool) (L : List α) (n : Nat)
    (h : ∀ m, n ≤ m → m < L.length → p (L.getD m default) = false) :
    ∀ x ∈ L.drop n, ¬ p x = true := by
  intro x hx
  obtain ⟨i, hi, hieq⟩ := List.mem_iff_getElem.mp hx
  rw [List.getElem_drop] at hieq
  have hlen : n + i < L.length := by
    have hdl := List.length_drop n L
    omega
  rw [← hieq, ← List.getD_eq_getElem L default hlen,
    h (n + i) (by omega) hlen]
  simp

/-- The bucket-range scan of `vdo` visits exactly the passing entries of the
scanned range, in order, with early stop on a false return. -/
theorem scanKey_spec {σ : Type} (comp : σ → List Nat → List Nat → σ × Bool)
    (elts : List xm_table_entry_t) (chk : Nat) (key : List Nat) :
    ∀ (n i : Nat) (s : σ), i + n ≤ elts.length →
    scanKeyGo comp elts chk key n i s
      = scanAll comp s (((elts.drop i).take n).filter
          (fun e => entryMatches chk key e))
  | 0, i, s, _ => by
    simp [scanKeyGo, scanAll]
  | n + 1, i, s, h => by
    have hi : i < elts.length := by omega
    rw [List.drop_eq_getElem_cons hi, List.take_succ_cons,
      ← List.getD_eq_getElem elts default hi]
    simp only [scanKeyGo]
    by_cases hm : entryMatches chk key (elts.getD i default) = true
    · have hm' : (fun e => entryMatches chk key e) (elts.getD i default) = true := hm
      rw [if_pos hm, List.filter_cons_of_pos hm']
      simp only [scanAll]
      by_cases hr : (comp s (elts.getD i default).key (elts.getD i default).val).2 = true
      · rw [if_pos hr, if_pos hr]
        exact scanKey_spec comp elts chk key n (i + 1) _ (by omega)
      · rw [if_neg hr, if_neg hr]
    · have hm' : ¬ (fun e => entryMatches chk key e) (elts.getD i default) = true := hm
      rw [if_neg hm, List.filter_cons_of_neg hm']
      exact scanKey_spec comp elts chk key n (i + 1) s (by omega)

/-- Under `WF`, one key's scan of `vdo` behaves exactly as the spec
describes: the callback runs on the case-insensitive matches in table
order. -/
theorem vdoOneKey_spec {σ : Type} (comp : σ → List Nat → List Nat → σ × Bool)
    {t : xm_table_t} {k : List Nat} (hwf : WF t) (hk : KeyValid k) (s : σ) :
    vdoOneKey comp t s k = vdoSpecOneKey comp s t.elts k := by
  simp only [vdoOneKey, vdoSpecOneKey]
  by_cases hbit : Nat.testBit t.index_init (TABLE_HASH k) = true
  · rw [if_pos hbit]
    obtain ⟨hfl, hll⟩ := hwf.2.2 (TABLE_HASH k) (by have := TABLE_HASH_le k; omega) hbit
    rw [scanKey_spec comp t.elts (computeChecksum k) k
      (t.index_last (TABLE_HASH k) + 1 - t.index_first (TABLE_HASH k))
      (t.index_first (TABLE_HASH k)) s (by omega)]
    have hnil1 : (t.elts.take (t.index_first (TABLE_HASH k))).filter
        (fun e => strcaseEq e.key k) = [] :=
      List.filter_eq_nil_iff.mpr (take_all_neg _ t.elts _ (fun m hm => by
        by_cases hsm : strcaseEq (t.elts.getD m default).key k = true
        · obtain ⟨_, hmf, _⟩ := match_in_range hwf hk m (by omega) hsm
          omega
        · simpa using hsm))
    have hnil2 : (t.elts.drop (t.index_last (TABLE_HASH k) + 1)).filter
        (fun e => strcaseEq e.key k) = [] :=
      List.filter_eq_nil_iff.mpr (drop_all_neg _ t.elts _ (fun m hm hmlen => by
        by_cases hsm : strcaseEq (t.elts.getD m default).key k = true
        · obtain ⟨_, _, hml⟩ := match_in_range hwf hk m hmlen hsm
          omega
        · simpa using hsm))
    have hcongr : ((t.elts.drop (t.index_first (TABLE_HASH k))).take
          (t.index_last (TABLE_HASH k) + 1 - t.index_first (TABLE_HASH k))).filter
          (fun e => entryMatches (computeChecksum k) k e)
        = ((t.elts.drop (t.index_first (TABLE_HASH k))).take
          (t.index_last (TABLE_HASH k) + 1 - t.index_first (TABLE_HASH k))).filter
          (fun e => strcaseEq e.key k) :=
      List.filter_congr (fun e he => by
        rw [entryMatches_eq_of_mem hwf hk e
          (List.mem_of_mem_drop (List.mem_of_mem_take he))])
    have hsplit : t.elts.filter (fun e => strcaseEq e.key k)
        = ((t.elts.drop (t.index_first (TABLE_HASH k))).take
            (t.index_last (TABLE_HASH k) + 1 - t.index_first (TABLE_HASH k))).filter
          (fun e => strcaseEq e.key k) := by
      conv_lhs => rw [← List.take_append_drop (t.index_first (TABLE_HASH k)) t.elts]
      rw [List.filter_append, hnil1, List.nil_append]
      conv_lhs => rw [← List.take_append_drop
        (t.index_last (TABLE_HASH k) + 1 - t.index_first (TABLE_HASH k))
        (t.elts.drop (t.index_first (TABLE_HASH k)))]
      rw [List.filter_append]
      have hdd : (t.elts.drop (t.index_first (TABLE_HASH k))).drop
          (t.index_last (TABLE_HASH k) + 1 - t.index_first (TABLE_HASH k))
          = t.elts.drop (t.index_last (TABLE_HASH k) + 1) := by
        rw [List.drop_drop]
        congr 1
        omega
      rw [hdd, hnil2, List.append_nil]
    rw [hcongr, ← hsplit]
  · have hbf : Nat.testBit t.index_init (TABLE_HASH k) = false := by simpa using hbit
    rw [if_neg (by simp [hbf])]
    have hnil : t.elts.filter (fun e => strcaseEq e.key k) = [] :=
      List.filter_eq_nil_iff.mpr (fun a ha => by
        rw [no_match_of_bit_clear hwf hk hbf a ha]
        simp)
    rw [hnil]
    rfl

theorem vdoKeys_spec {σ : Type} (comp : σ → List Nat → List Nat → σ × Bool)
    {t : xm_table_t} (hwf : WF t) :
    ∀ (keys : List (List Nat)), (∀ k ∈ keys, KeyValid k) →
    ∀ (s : σ) (acc : Bool),
    vdoKeys comp t keys s acc = vdoSpecKeys comp t.elts keys s acc
  | [], _, s, acc => rfl
  | k :: ks, hks, s, acc => by
    simp only [vdoKeys, vdoSpecKeys]
    rw [vdoOneKey_spec comp hwf (hks k (List.mem_cons_self k ks)) s]
    exact vdoKeys_spec comp hwf ks
      (fun k2 hk2 => hks k2 (List.mem_cons_of_mem k hk2)) _ _

/-- C6: with one or more keys, `xm_table_vdo` runs, for each key
independently and in table order, the callback on exactly the entries whose
key matches that key case-insensitively, a false return stopping only that
key's scan; with no keys it makes a single whole-table pass stopping at the
first false return; the overall result accumulates a false from any
callback — precisely the behavior of the specification-side `vdoSpec`. -/
theorem claim_C6 {σ : Type} (comp : σ → List Nat → List Nat → σ × Bool)
    (rec : σ) (t : xm_table_t) (keys : List (List Nat)) (hwf : WF t)
    (hks : ∀ k ∈ keys, KeyValid k) :
    xm_table_vdo comp rec t keys = vdoSpec comp rec t keys := by
  cases keys with
  | nil => rfl
  | cons k ks =>
    simp only [xm_table_vdo, vdoSpec]
    exact vdoKeys_spec comp hwf (k :: ks) hks rec true

theorem claim_C6_witness :
    WF (xm_table_add (xm_table_add (xm_table_make 2) [97] [49, 50]) [97] [51]) ∧
    (∀ k ∈ [[97], [98]], KeyValid k) ∧
    xm_table_vdo (fun (s : Nat) (_k v : List Nat) => (s + v.length, true)) 0
        (xm_table_add (xm_table_add (xm_table_make 2) [97] [49, 50]) [97] [51])
        [[97], [98]]
      = vdoSpec (fun (s : Nat) (_k v : List Nat) => (s + v.length, true)) 0
        (xm_table_add (xm_table_add (xm_table_make 2) [97] [49, 50]) [97] [51])
        [[97], [98]] :=
  ⟨by decide, by decide,
    claim_C6 (fun (s : Nat) (_k v : List Nat) => (s + v.length, true)) 0
      (xm_table_add (xm_table_add (xm_table_make 2) [97] [49, 50]) [97] [51])
      [[97], [98]] (by decide) (by decide)⟩

/-! ## `add` twice and `getm` (claim C8) -/

/-- C8 counterexample: the claim quantifies over every table, but when an
entry matching `K` already exists (here `("a","z")`), `get` after
`add(K,"1")`, `add(K,"2")` returns the pre-existing first match `"z"`, not
`V1 = "1"`, and `getm` joins all three values. -/
theorem claim_C8_counterexample :
    xm_table_get (xm_table_add (xm_table_add (xm_table_add (xm_table_make 2)
        [97] [122]) [97] [49]) [97] [50]) [97] = some [122] ∧
    some [122] ≠ some ([49] : List Nat) ∧
    xm_table_getm (xm_table_add (xm_table_add (xm_table_add (xm_table_make 2)
        [97] [122]) [97] [49]) [97] [50]) [97] = some [122, 44, 49, 44, 50] ∧
    some [122, 44, 49, 44, 50] ≠ some ([49, 44, 50] : List Nat) := by
  decide

/-- C8 (amended): on a well-formed table with no existing case-insensitive
match of the valid key `K`, after `add(K, V1)` then `add(K, V2)`, `get(K)`
returns `V1` (the first matching entry in insertion order) and `getm(K)`
returns `V1 ++ "," ++ V2` (the match values joined with a comma and no
space, in insertion order). -/
theorem claim_C8_amended (t : xm_table_t) (k v1 v2 : List Nat) (hwf : WF t)
    (hk : KeyValid k)
    (hno : ∀ e ∈ t.elts, strcaseEq e.key k = false) :
    xm_table_get (xm_table_add (xm_table_add t k v1) k v2) k = some v1 ∧
    xm_table_getm (xm_table_add (xm_table_add t k v1) k v2) k
      = some (v1 ++ [44] ++ v2) := by
  have hwf1 : WF (xm_table_add t k v1) := WF_xm_table_add hwf hk
  have hwf2 : WF (xm_table_add (xm_table_add t k v1) k v2) :=
    WF_xm_table_add hwf1 hk
  have he2 : (xm_table_add (xm_table_add t k v1) k v2).elts
      = (t.elts ++ [⟨k, v1, computeChecksum k⟩]) ++ [⟨k, v2, computeChecksum k⟩] := by
    rw [xm_table_add_elts, xm_table_add_elts]
  have hfilter : (xm_table_add (xm_table_add t k v1) k v2).elts.filter
        (fun e => strcaseEq e.key k)
      = [⟨k, v1, computeChecksum k⟩, ⟨k, v2, computeChecksum k⟩] := by
    rw [he2, List.filter_append, List.filter_append]
    rw [List.filter_eq_nil_iff.mpr (fun a ha => by
      rw [hno a ha]
      simp)]
    rw [List.filter_cons_of_pos (by exact strcaseEq_refl k),
        List.filter_cons_of_pos (by exact strcaseEq_refl k)]
    rfl
  constructor
  · rw [xm_table_get_eq_find hwf2 hk, he2]
    rw [List.find?_append, List.find?_append]
    rw [List.find?_eq_none.mpr (fun x hx => by
      rw [hno x hx]
      simp)]
    rw [List.find?_cons_of_pos _ (by exact strcaseEq_refl k)]
    rfl
  · have hone : vdoOneKey table_getm_do (xm_table_add (xm_table_add t k v1) k v2)
        ({ first := none, merged := none } : table_getm_t) k
        = scanAll table_getm_do { first := none, merged := none }
            [⟨k, v1, computeChecksum k⟩, ⟨k, v2, computeChecksum k⟩] := by
      rw [vdoOneKey_spec table_getm_do hwf2 hk]
      unfold vdoSpecOneKey
      rw [hfilter]
    have hscan : scanAll table_getm_do
        ({ first := none, merged := none } : table_getm_t)
        [⟨k, v1, computeChecksum k⟩, ⟨k, v2, computeChecksum k⟩]
        = ({ first := some v1, merged := some [some v1, some v2] }, true) := rfl
    have hstate : (xm_table_do table_getm_do { first := none, merged := none }
        (xm_table_add (xm_table_add t k v1) k v2) [k]).1
        = ({ first := some v1, merged := some [some v1, some v2] } : table_getm_t) := by
      have h1 : xm_table_do table_getm_do { first := none, merged := none }
          (xm_table_add (xm_table_add t k v1) k v2) [k]
          = ((vdoOneKey table_getm_do (xm_table_add (xm_table_add t k v1) k v2)
              { first := none, merged := none } k).1,
             true && (vdoOneKey table_getm_do (xm_table_add (xm_table_add t k v1) k v2)
              { first := none, merged := none } k).2) := rfl
      rw [h1, hone, hscan]
    simp only [xm_table_getm, hstate]
    simp [xm_array_pstrcat, pstrcatGo]

theorem claim_C8_amended_witness :
    WF (xm_table_make 1) ∧ KeyValid [97] ∧
    (∀ e ∈ (xm_table_make 1).elts, strcaseEq e.key [97] = false) ∧
    (xm_table_get (xm_table_add (xm_table_add (xm_table_make 1) [97] [49])
        [97] [50]) [97] = some [49] ∧
      xm_table_getm (xm_table_add (xm_table_add (xm_table_make 1) [97] [49])
        [97] [50]) [97] = some ([49] ++ [44] ++ [50])) :=
  ⟨by decide, by decide, by decide,
    claim_C8_amended (xm_table_make 1) [97] [49] [50] (by decide) (by decide)
      (by decide)⟩

/-- C4: on the table holding, in insertion order, `("a","1")`, `("b","x")`,
`("a","2")`, `compress` with the merge policy leaves exactly one entry for
`"a"` with value `"1, 2"` — the duplicate values joined with `", "` in
original insertion order, non-adjacent duplicates brought together by the
stable bottom-up mergesort — and one unchanged entry for `"b"`; with the
overwrite policy `"a"`'s single remaining value is `"2"`, the last in
insertion order. -/
theorem claim_C4 :
    (xm_table_compress (xm_table_add (xm_table_add (xm_table_add
        (xm_table_make 0) [97] [49]) [98] [120]) [97] [50])
        XM_OVERLAP_TABLES_MERGE).elts
      = [⟨[97], [49, 44, 32, 50], computeChecksum [97]⟩,
         ⟨[98], [120], computeChecksum [98]⟩] ∧
    (xm_table_compress (xm_table_add (xm_table_add (xm_table_add
        (xm_table_make 0) [97] [49]) [98] [120]) [97] [50])
        XM_OVERLAP_TABLES_SET).elts
      = [⟨[97], [50], computeChecksum [97]⟩,
         ⟨[98], [120], computeChecksum [98]⟩] := by
  decide
